import Mathlib

/-!
Verification development for the Apache Ignite 3 C++ thin-client table engine
(modules/platforms/cpp/ignite/client/detail/table/table_impl.cpp).

The definitions below are a shallow embedding of the table data-operations
engine: the tuple codec (pack_tuple / write_tuple / read_tuple and friends),
the per-table schema cache, and the fifteen public data operations with their
transaction gate.  External collaborators that the C++ slice consumes but does
not define (the binary tuple builder/parser, ignite_tuple, bitset_span,
add_schema, with_latest_schema_async, get_schema) are modelled from the
specification at the interface level; each such definition is marked in its
doc comment.
-/

set_option autoImplicit false

deriving instance DecidableEq for Except

namespace IgniteClient

/-! ## Byte-level encodings

Modelled from the spec: the binary tuple field payload encodings
(two's-complement little-endian integers, IEEE bit patterns carried as raw
bit strings, 16-byte UUID, verbatim STRING/BINARY bytes).  The binary tuple
builder/parser sources are outside the provided slice. -/

/-- Little-endian byte encoding of a natural number into exactly `k` bytes. -/
def natToLE : Nat → Nat → List Nat
  | 0, _ => []
  | k + 1, n => n % 256 :: natToLE k (n / 256)

/-- Little-endian byte decoding of a natural number. -/
def leToNat : List Nat → Nat
  | [] => 0
  | b :: bs => b + 256 * leToNat bs

/-- Two's-complement little-endian encoding of an integer into `k` bytes. -/
def intToLE (k : Nat) (v : Int) : List Nat :=
  natToLE k (v.emod (2 ^ (8 * k))).toNat

/-- Two's-complement little-endian decoding of `k` bytes into an integer. -/
def leToInt (k : Nat) (bs : List Nat) : Int :=
  let n := leToNat bs
  if n < 2 ^ (8 * k - 1) then (n : Int) else (n : Int) - 2 ^ (8 * k)

/-- Big-endian variant used for UUID halves. -/
def intToBE (k : Nat) (v : Int) : List Nat :=
  (intToLE k v).reverse

/-- Big-endian decoding for UUID halves. -/
def beToInt (k : Nat) (bs : List Nat) : Int :=
  leToInt k bs.reverse

theorem natToLE_length (k n : Nat) : (natToLE k n).length = k := by
  induction k generalizing n with
  | zero => rfl
  | succ k ih => simp [natToLE, ih]

theorem leToNat_natToLE (k n : Nat) (h : n < 256 ^ k) :
    leToNat (natToLE k n) = n := by
  induction k generalizing n with
  | zero =>
    simp [natToLE, leToNat]
    omega
  | succ k ih =>
    have hdiv : n / 256 < 256 ^ k := by
      rw [Nat.div_lt_iff_lt_mul (by norm_num)]
      calc n < 256 ^ (k + 1) := h
        _ = 256 ^ k * 256 := by ring
    simp only [natToLE, leToNat, ih _ hdiv]
    omega

theorem leToInt_intToLE (k : Nat) (hk : 1 ≤ k) (v : Int)
    (h1 : -(2 ^ (8 * k - 1)) ≤ v) (h2 : v < 2 ^ (8 * k - 1)) :
    leToInt k (intToLE k v) = v := by
  have hsplit : 8 * k = (8 * k - 1) + 1 := by omega
  have hm : (2 : Int) ^ (8 * k) = 2 ^ (8 * k - 1) * 2 := by
    have hp := pow_succ (2 : Int) (8 * k - 1)
    rw [← hsplit] at hp
    exact hp
  have hhalf : (0 : Int) < 2 ^ (8 * k - 1) := by positivity
  have hmpos : (0 : Int) < 2 ^ (8 * k) := by positivity
  -- the representative in [0, 2^(8k))
  have hrep : v.emod (2 ^ (8 * k)) = if 0 ≤ v then v else v + 2 ^ (8 * k) := by
    split
    · exact Int.emod_eq_of_lt (by assumption) (by omega)
    · have hv : 0 ≤ v + 2 ^ (8 * k) := by omega
      have hlt : v + 2 ^ (8 * k) < 2 ^ (8 * k) := by omega
      have h4 : v + 2 ^ (8 * k) = v + 2 ^ (8 * k) * 1 := by ring
      calc v.emod (2 ^ (8 * k)) = v % 2 ^ (8 * k) := rfl
        _ = (v + 2 ^ (8 * k) * 1) % 2 ^ (8 * k) := (Int.add_mul_emod_self_left v (2 ^ (8 * k)) 1).symm
        _ = (v + 2 ^ (8 * k)) % 2 ^ (8 * k) := by rw [← h4]
        _ = v + 2 ^ (8 * k) := Int.emod_eq_of_lt hv hlt
  have hnn : 0 ≤ v.emod (2 ^ (8 * k)) := Int.emod_nonneg v (by positivity)
  have hlt : v.emod (2 ^ (8 * k)) < 2 ^ (8 * k) := Int.emod_lt_of_pos v hmpos
  set n : Nat := (v.emod (2 ^ (8 * k))).toNat with hn
  have hcast : (n : Int) = v.emod (2 ^ (8 * k)) := Int.toNat_of_nonneg hnn
  have hnat : n < 256 ^ k := by
    have h256 : (256 : Int) ^ k = 2 ^ (8 * k) := by
      rw [show (256 : Int) = 2 ^ 8 by norm_num, ← pow_mul]
    have : (n : Int) < 256 ^ k := by rw [hcast, h256]; exact hlt
    exact_mod_cast this
  have hnatcast : ((2 ^ (8 * k - 1) : Nat) : Int) = 2 ^ (8 * k - 1) := by
    push_cast
    ring
  unfold leToInt intToLE
  rw [← hn, leToNat_natToLE k n hnat]
  by_cases hpos : 0 ≤ v
  · have hveq : (n : Int) = v := by rw [hcast, hrep]; simp [hpos]
    have hcond : n < 2 ^ (8 * k - 1) := by
      have : (n : Int) < 2 ^ (8 * k - 1) := by omega
      omega
    simp only [hcond, if_true]
    exact hveq
  · have hveq : (n : Int) = v + 2 ^ (8 * k) := by
      rw [hcast, hrep]
      simp [hpos]
    have hcond : ¬ n < 2 ^ (8 * k - 1) := by
      have : (2 ^ (8 * k - 1) : Int) ≤ (n : Int) := by omega
      omega
    simp only [hcond, if_false]
    omega

theorem beToInt_intToBE (k : Nat) (hk : 1 ≤ k) (v : Int)
    (h1 : -(2 ^ (8 * k - 1)) ≤ v) (h2 : v < 2 ^ (8 * k - 1)) :
    beToInt k (intToBE k v) = v := by
  unfold beToInt intToBE
  rw [List.reverse_reverse]
  exact leToInt_intToLE k hk v h1 h2

theorem intToLE_length (k : Nat) (v : Int) : (intToLE k v).length = k := by
  unfold intToLE
  exact natToLE_length _ _

theorem intToBE_length (k : Nat) (v : Int) : (intToBE k v).length = k := by
  unfold intToBE
  rw [List.length_reverse]
  exact intToLE_length _ _

/-! ## Data model

The record (ignite_tuple), column descriptor and schema.  The ignite_tuple
class itself sits outside the provided slice.
Modelled from the spec (section 4.5, Record model): ordered named fields,
polymorphic values with an absent sentinel (the empty std::any), ordinal
lookup by case-insensitive name returning -1 on miss, insert-or-overwrite
set. -/

/-- Column type tags dispatched by the codec (ignite_type).  Types outside
the supported set are carried by the `unsupported` constructor with their
numeric id, matching the default switch branches in table_impl.cpp. -/
inductive ignite_type where
  | INT8
  | INT16
  | INT32
  | INT64
  | FLOAT
  | DOUBLE
  | UUID
  | STRING
  | BINARY
  | unsupported (id : Nat)
  deriving DecidableEq

/-- Tagged variant over the supported primitive set: the payload of a
non-empty std::any slot of a record.  C++ float/double values are carried as
their IEEE bit patterns, std::string and std::vector of bytes as raw byte
lists, uuid as its two signed 64-bit halves. -/
inductive typed_value where
  | vint8 (v : Int)
  | vint16 (v : Int)
  | vint32 (v : Int)
  | vint64 (v : Int)
  | vfloat (bits : Nat)
  | vdouble (bits : Nat)
  | vuuid (msb lsb : Int)
  | vstring (bytes : List Nat)
  | vbinary (bytes : List Nat)
  deriving DecidableEq

/-- Value slot of a record: `none` is the empty std::any. -/
abbrev any_value := Option typed_value

/-- ASCII lower-casing of one character. -/
def fold_char (c : Char) : Char :=
  if 65 ≤ c.toNat ∧ c.toNat ≤ 90 then Char.ofNat (c.toNat + 32) else c

/-- Case-insensitive name folding used by record column lookup. -/
def fold_name (s : String) : String :=
  ⟨s.data.map fold_char⟩

/-- User-visible record (ignite_tuple): ordered named fields. -/
structure ignite_tuple where
  fields : List (String × any_value)
  deriving DecidableEq

/-- Position of the first pair whose name matches case-insensitively. -/
def find_ordinal (name : String) : List (String × any_value) → Option Nat
  | [] => none
  | p :: rest =>
    if fold_name p.1 = fold_name name then some 0
    else (find_ordinal name rest).map (fun i => i + 1)

/-- Ordinal of the first field whose name matches case-insensitively. -/
def ignite_tuple.column_ordinal? (t : ignite_tuple) (name : String) : Option Nat :=
  find_ordinal name t.fields

/-- Source-shaped ordinal lookup: -1 on miss (ignite_tuple::column_ordinal). -/
def ignite_tuple.column_ordinal (t : ignite_tuple) (name : String) : Int :=
  match t.column_ordinal? name with
  | some i => i
  | none => -1

/-- Value by ordinal; `none` when the ordinal is out of range. -/
def ignite_tuple.val_at (t : ignite_tuple) (i : Nat) : Option any_value :=
  (t.fields.get? i).map (fun p => p.2)

/-- Value by name (ignite_tuple::get(name)); `none` models FieldNotFound. -/
def ignite_tuple.get_by_name (t : ignite_tuple) (name : String) : Option any_value :=
  (t.column_ordinal? name).bind t.val_at

/-- Insert-or-overwrite a field (ignite_tuple::set). -/
def ignite_tuple.set (t : ignite_tuple) (name : String) (v : any_value) : ignite_tuple :=
  match t.column_ordinal? name with
  | some i => ⟨t.fields.set i (((t.fields.get? i).map (fun p => p.1)).getD name, v)⟩
  | none => ⟨t.fields ++ [(name, v)]⟩

/-- Number of fields of a record. -/
def ignite_tuple.size (t : ignite_tuple) : Nat :=
  t.fields.length

/-- Empty record. -/
def ignite_tuple.empty : ignite_tuple := ⟨[]⟩

/-- Column descriptor of a schema. -/
structure column where
  name : String
  type : ignite_type
  nullable : Bool
  is_key : Bool
  deriving DecidableEq

/-- Table schema: version, number of leading key columns, ordered columns. -/
structure schema where
  version : Int
  key_column_count : Nat
  columns : List column
  deriving DecidableEq

/-- Error kinds surfaced to user callbacks (section 7 of the spec; the C++
throws ignite_error with a distinguishing message). -/
inductive error_kind where
  | transactions_unsupported
  | schema_missing
  | type_unsupported
  | type_mismatch
  | field_not_found
  | protocol_error
  deriving DecidableEq

/-! ## Tuple codec -/

/-- Number of fields the builder or parser is sized for, as computed at
table_impl.cpp:180, 220 and 296. -/
def count_of (sch : schema) (key_only : Bool) : Nat :=
  if key_only then sch.key_column_count else sch.columns.length

/-- Payload bytes of one claimed/appended column value, per the type dispatch
of claim_column/append_column (table_impl.cpp:38 and 81): a supported type
with a value of the matching variant encodes to its byte payload; an
unsupported type throws TypeUnsupported; a tag disagreement (including the
empty std::any) throws TypeMismatch. -/
def encode_column_value (typ : ignite_type) (v : any_value) : Except error_kind (List Nat) :=
  match typ, v with
  | .INT8, some (.vint8 n) => .ok (intToLE 1 n)
  | .INT16, some (.vint16 n) => .ok (intToLE 2 n)
  | .INT32, some (.vint32 n) => .ok (intToLE 4 n)
  | .INT64, some (.vint64 n) => .ok (intToLE 8 n)
  | .FLOAT, some (.vfloat b) => .ok (natToLE 4 b)
  | .DOUBLE, some (.vdouble b) => .ok (natToLE 8 b)
  | .UUID, some (.vuuid m l) => .ok (intToBE 8 m ++ intToBE 8 l)
  | .STRING, some (.vstring bs) => .ok bs
  | .BINARY, some (.vbinary bs) => .ok bs
  | .unsupported _, _ => .error .type_unsupported
  | _, _ => .error .type_mismatch

/-- Decoding of one field payload, per the type dispatch of read_next_column
(table_impl.cpp:126).  A payload of the wrong width is a malformed frame. -/
def decode_column_value (typ : ignite_type) (bs : List Nat) : Except error_kind typed_value :=
  match typ with
  | .INT8 => if bs.length = 1 then .ok (.vint8 (leToInt 1 bs)) else .error .protocol_error
  | .INT16 => if bs.length = 2 then .ok (.vint16 (leToInt 2 bs)) else .error .protocol_error
  | .INT32 => if bs.length = 4 then .ok (.vint32 (leToInt 4 bs)) else .error .protocol_error
  | .INT64 => if bs.length = 8 then .ok (.vint64 (leToInt 8 bs)) else .error .protocol_error
  | .FLOAT => if bs.length = 4 then .ok (.vfloat (leToNat bs)) else .error .protocol_error
  | .DOUBLE => if bs.length = 8 then .ok (.vdouble (leToNat bs)) else .error .protocol_error
  | .UUID =>
    if bs.length = 16 then .ok (.vuuid (beToInt 8 (bs.take 8)) (beToInt 8 (bs.drop 8)))
    else .error .protocol_error
  | .STRING => .ok (.vstring bs)
  | .BINARY => .ok (.vbinary bs)
  | .unsupported _ => .error .type_unsupported

/-- Well-typedness of a value against a column type: the tag matches and the
payload is representable (the ranges a C++ value of that type always has). -/
def value_matches (typ : ignite_type) (tv : typed_value) : Bool :=
  match typ, tv with
  | .INT8, .vint8 n => decide (-(2 ^ 7) ≤ n ∧ n < 2 ^ 7)
  | .INT16, .vint16 n => decide (-(2 ^ 15) ≤ n ∧ n < 2 ^ 15)
  | .INT32, .vint32 n => decide (-(2 ^ 31) ≤ n ∧ n < 2 ^ 31)
  | .INT64, .vint64 n => decide (-(2 ^ 63) ≤ n ∧ n < 2 ^ 63)
  | .FLOAT, .vfloat b => decide (b < 2 ^ 32)
  | .DOUBLE, .vdouble b => decide (b < 2 ^ 64)
  | .UUID, .vuuid m l =>
    decide (-(2 ^ 63) ≤ m ∧ m < 2 ^ 63 ∧ -(2 ^ 63) ≤ l ∧ l < 2 ^ 63)
  | .STRING, .vstring _ => true
  | .BINARY, .vbinary _ => true
  | _, _ => false

/-- A built binary tuple at the interface level.
Modelled from the spec (section 4.1): a self-delimiting fixed-arity sequence
of field payloads, each either absent or a byte string; the prefix-table
layout of the real format is owned by the external builder/parser. -/
abbrev tuple_data := List (Option (List Nat))

/-- Binary tuple parser state: the number of fields it may still yield and
the remaining field payloads.
Modelled from the spec: one-pass parsing via get_next. -/
structure binary_tuple_parse_state where
  remaining : Nat
  entries : tuple_data

/-- One parsing step (binary_tuple_parse_state::get_next): yields the next
optional payload; running past the declared field count or past the data is
a malformed frame. -/
def binary_tuple_parse_state.get_next (p : binary_tuple_parse_state) :
    Except error_kind (Option (List Nat) × binary_tuple_parse_state) :=
  match p.remaining, p.entries with
  | 0, _ => .error .protocol_error
  | _ + 1, [] => .error .protocol_error
  | n + 1, e :: es => .ok (e, ⟨n, es⟩)

/-- claim_column (table_impl.cpp:38): type-checks the value at the given
ordinal and reserves space for its payload. -/
def claim_column (typ : ignite_type) (index : Nat) (tuple : ignite_tuple) :
    Except error_kind Unit :=
  match tuple.val_at index with
  | none => .error .field_not_found
  | some v => (encode_column_value typ v).map (fun _ => ())

/-- append_column (table_impl.cpp:81): emits the payload of the value at the
given ordinal. -/
def append_column (typ : ignite_type) (index : Nat) (tuple : ignite_tuple) :
    Except error_kind (List Nat) :=
  match tuple.val_at index with
  | none => .error .field_not_found
  | some v => encode_column_value typ v

/-- read_next_column (table_impl.cpp:126): absent parser fields become the
empty std::any; present fields are decoded per the column type. -/
def read_next_column (parser : binary_tuple_parse_state) (typ : ignite_type) :
    Except error_kind (any_value × binary_tuple_parse_state) := do
  let (e, p1) ← parser.get_next
  match e with
  | none => .ok (none, p1)
  | some bs => (decode_column_value typ bs).map (fun tv => (some tv, p1))

/-- First pass of pack_tuple (table_impl.cpp:185): claim each of the first
`count` schema columns, absent when the record lacks the column name. -/
def claim_columns (tuple : ignite_tuple) : List column → Except error_kind Unit
  | [] => .ok ()
  | col :: rest =>
    match tuple.column_ordinal? col.name with
    | some j => (claim_column col.type j tuple).bind (fun _ => claim_columns tuple rest)
    | none => claim_columns tuple rest

/-- Second pass of pack_tuple (table_impl.cpp:196): append each field and
set bit `i` of the no-value bitset when the record lacks the column;
returns the emitted field payloads and the bitset (as a natural number read
through Nat.testBit), starting at field index `i`. -/
def append_columns (tuple : ignite_tuple) (cols : List column) (i : Nat) :
    Except error_kind (tuple_data × Nat) :=
  match cols with
  | [] => .ok ([], 0)
  | col :: rest =>
    match tuple.column_ordinal? col.name with
    | some j =>
      (append_column col.type j tuple).bind (fun bs =>
        (append_columns tuple rest (i + 1)).map (fun r => (some bs :: r.1, r.2)))
    | none =>
      (append_columns tuple rest (i + 1)).map (fun r => (none :: r.1, r.2 ||| (1 <<< i)))

/-- pack_tuple (table_impl.cpp:178): serialize a record against a schema,
claim pass then append pass, returning the built tuple and the no-value
bitset. -/
def pack_tuple (sch : schema) (tuple : ignite_tuple) (key_only : Bool) :
    Except error_kind (tuple_data × Nat) :=
  let cols := sch.columns.take (count_of sch key_only)
  (claim_columns tuple cols).bind (fun _ => append_columns tuple cols 0)

/-- MessagePack-level wire items emitted and consumed by the operation
writer/reader closures. -/
inductive wire_value where
  | wnil
  | wi32 (v : Int)
  | wbool (b : Bool)
  | wuuid (msb lsb : Int)
  | wbitset (bytes : List Nat)
  | wbin (data : tuple_data)
  deriving DecidableEq

/-- Stream of wire items seen by a writer or reader. -/
abbrev wire_stream := List wire_value

/-- bytes_for_bits (ignite/common/bits.h).
Modelled from the spec: a bitset of ceil(count/8) bytes. -/
def bytes_for_bits (n : Nat) : Nat :=
  (n + 7) / 8

/-- write_tuple (table_impl.cpp:219): emit the no-value bitset as a sized
blob, then the built tuple as a sized blob.
Modelled from the spec for bitset_span: the freshly allocated bitset starts
all-zero. -/
def write_tuple (sch : schema) (tuple : ignite_tuple) (key_only : Bool) :
    Except error_kind wire_stream :=
  (pack_tuple sch tuple key_only).map (fun r =>
    [.wbitset (natToLE (bytes_for_bits (count_of sch key_only)) r.2), .wbin r.1])

/-- write_tuples (table_impl.cpp:240): an i32 count then that many tuple
payloads of identical key_only mode. -/
def write_tuples (sch : schema) (tuples : List ignite_tuple) (key_only : Bool) :
    Except error_kind wire_stream :=
  (tuples.mapM (fun t => write_tuple sch t key_only)).map
    (fun parts => .wi32 tuples.length :: parts.flatten)

/-- Reader primitive read_binary. -/
def read_binary : wire_stream → Except error_kind (tuple_data × wire_stream)
  | .wbin d :: rest => .ok (d, rest)
  | _ => .error .protocol_error

/-- Reader primitive read_bool. -/
def read_bool : wire_stream → Except error_kind (Bool × wire_stream)
  | .wbool b :: rest => .ok (b, rest)
  | _ => .error .protocol_error

/-- Reader primitive read_int32. -/
def read_int32 : wire_stream → Except error_kind (Int × wire_stream)
  | .wi32 v :: rest => .ok (v, rest)
  | _ => .error .protocol_error

/-- Loop body of the key_only read_tuple (table_impl.cpp:300): consume one
parser field per column, pairing it with the schema column name. -/
def read_columns (parser : binary_tuple_parse_state) :
    List column → Except error_kind (List (String × any_value) × binary_tuple_parse_state)
  | [] => .ok ([], parser)
  | col :: rest => do
    let (v, p1) ← read_next_column parser col.type
    let (l, p2) ← read_columns p1 rest
    .ok ((col.name, v) :: l, p2)

/-- Build a record by applying ignite_tuple::set for each produced pair, as
the read_tuple loops do. -/
def build_record (l : List (String × any_value)) : ignite_tuple :=
  l.foldl (fun acc p => acc.set p.1 p.2) ignite_tuple.empty

/-- read_tuple(reader, sch, key_only) (table_impl.cpp:293): read the tuple
blob, parse `columns_cnt` fields where `columns_cnt` is key_column_count in
key-only mode and columns.size() otherwise, and fill a record with those
columns. -/
def read_tuple (stream : wire_stream) (sch : schema) (key_only : Bool) :
    Except error_kind (ignite_tuple × wire_stream) := do
  let (tdata, rest) ← read_binary stream
  let columns_cnt := count_of sch key_only
  let (l, _) ← read_columns ⟨columns_cnt, tdata⟩ (sch.columns.take columns_cnt)
  .ok (build_record l, rest)

/-- Loop body of the key-merging read_tuple (table_impl.cpp:274): key
columns (index below key_column_count) are copied from the request record by
name, value columns are consumed from the parser. -/
def merge_read_columns (key : ignite_tuple) (parser : binary_tuple_parse_state)
    (keycnt : Nat) :
    List column → Nat → Except error_kind (List (String × any_value) × binary_tuple_parse_state)
  | [], _ => .ok ([], parser)
  | col :: rest, i =>
    if i < keycnt then
      match key.get_by_name col.name with
      | none => .error .field_not_found
      | some v =>
        (merge_read_columns key parser keycnt rest (i + 1)).map
          (fun r => ((col.name, v) :: r.1, r.2))
    else do
      let (v, p1) ← read_next_column parser col.type
      let (l, p2) ← merge_read_columns key p1 keycnt rest (i + 1)
      .ok ((col.name, v) :: l, p2)

/-- read_tuple(reader, sch, key) (table_impl.cpp:267): the response elides
key fields; the parser is sized to columns.size() - key_column_count, key
columns are copied from the request record, value columns are parsed. -/
def read_tuple_with_key (stream : wire_stream) (sch : schema) (key : ignite_tuple) :
    Except error_kind (ignite_tuple × wire_stream) := do
  let (tdata, rest) ← read_binary stream
  let columns_cnt := sch.columns.length
  let (l, _) ← merge_read_columns key ⟨columns_cnt - sch.key_column_count, tdata⟩
    sch.key_column_count sch.columns 0
  .ok (build_record l, rest)

/-- Counted loop of read_tuples (table_impl.cpp:350). -/
def read_tuples_loop (sch : schema) (key_only : Bool) :
    Nat → wire_stream → Except error_kind (List ignite_tuple × wire_stream)
  | 0, stream => .ok ([], stream)
  | n + 1, stream => do
    let (t, s1) ← read_tuple stream sch key_only
    let (ts, s2) ← read_tuples_loop sch key_only n s1
    .ok (t :: ts, s2)

/-- read_tuples (table_impl.cpp:342): with a null schema return an empty
vector without consuming anything; otherwise read an i32 count and that many
tuples. -/
def read_tuples (stream : wire_stream) (sch : Option schema) (key_only : Bool) :
    Except error_kind (List ignite_tuple × wire_stream) :=
  match sch with
  | none => .ok ([], stream)
  | some s => do
    let (count, s1) ← read_int32 stream
    read_tuples_loop s key_only count.toNat s1

/-- Counted loop of read_tuples_opt (table_impl.cpp:323): each entry is
preceded by an exists flag. -/
def read_tuples_opt_loop (sch : schema) (key_only : Bool) :
    Nat → wire_stream → Except error_kind (List (Option ignite_tuple) × wire_stream)
  | 0, stream => .ok ([], stream)
  | n + 1, stream => do
    let (ex, s1) ← read_bool stream
    if ex then do
      let (t, s2) ← read_tuple s1 sch key_only
      let (ts, s3) ← read_tuples_opt_loop sch key_only n s2
      .ok (some t :: ts, s3)
    else do
      let (ts, s2) ← read_tuples_opt_loop sch key_only n s1
      .ok (none :: ts, s2)

/-- read_tuples_opt (table_impl.cpp:315): with a null schema return an empty
vector without consuming anything; otherwise read an i32 count and that many
optional tuples. -/
def read_tuples_opt (stream : wire_stream) (sch : Option schema) (key_only : Bool) :
    Except error_kind (List (Option ignite_tuple) × wire_stream) :=
  match sch with
  | none => .ok ([], stream)
  | some s => do
    let (count, s1) ← read_int32 stream
    read_tuples_opt_loop s key_only count.toNat s1

/-! ## Schema cache -/

/-- Per-table schema cache: m_latest_schema_version (initially -1) and the
m_schemas map, represented as an association list where the first match
wins. -/
structure schema_cache where
  latest : Int
  entries : List (Int × schema)
  deriving DecidableEq

/-- Lookup of a version in the cache map. -/
def schema_cache.lookup (c : schema_cache) (v : Int) : Option schema :=
  (c.entries.find? (fun p => p.1 == v)).map (fun p => p.2)

/-- Fresh cache of a newly created table handle. -/
def schema_cache.empty : schema_cache :=
  ⟨-1, []⟩

/-- table_impl::add_schema.
Modelled from the spec (section 3, SchemaCache): insert version to schema
into the map and monotonically raise latest_version. -/
def schema_cache.add_schema (c : schema_cache) (s : schema) : schema_cache :=
  ⟨max c.latest s.version, (s.version, s) :: c.entries⟩

/-- Cache invariants I2/I3 of the spec, together with non-negativity of the
stored versions: latest is -1 exactly on the empty cache, bounds every
stored version, and is itself present when the cache is non-empty. -/
@[reducible] def cache_inv (c : schema_cache) : Prop :=
  (c.entries = [] ↔ c.latest = -1) ∧
    (∀ p ∈ c.entries, 0 ≤ p.1 ∧ p.1 ≤ c.latest) ∧
    (0 ≤ c.latest → (c.lookup c.latest).isSome = true)

/-! ## Operation pipeline -/

/-- RPC opcodes used by the table engine (client_operation). -/
inductive client_operation where
  | SCHEMAS_GET
  | TUPLE_GET
  | TUPLE_GET_ALL
  | TUPLE_UPSERT
  | TUPLE_UPSERT_ALL
  | TUPLE_GET_AND_UPSERT
  | TUPLE_INSERT
  | TUPLE_INSERT_ALL
  | TUPLE_REPLACE
  | TUPLE_REPLACE_EXACT
  | TUPLE_GET_AND_REPLACE
  | TUPLE_DELETE
  | TUPLE_DELETE_EXACT
  | TUPLE_GET_AND_DELETE
  | TUPLE_DELETE_ALL
  | TUPLE_DELETE_ALL_EXACT
  deriving DecidableEq

/-- One request handed to cluster_connection::perform_request. -/
structure rpc_call where
  op : client_operation
  request : wire_stream
  deriving DecidableEq

/-- Table handle state: the table id (a uuid, carried as its two halves) and
the schema cache. -/
structure table_state where
  id_msb : Int
  id_lsb : Int
  cache : schema_cache
  deriving DecidableEq

/-- One operation response as seen by a reader closure.
Modelled from the spec: get_schema(reader) resolves an optional schema whose
wire shape the spec leaves to the server protocol (section 9, open
question), so the response model carries the resolved optional schema
directly, followed by the response body items. -/
structure op_response where
  resolved_schema : Option schema
  body : wire_stream

/-- Environment of one operation run: the SCHEMAS_GET reply (the entries of
the version-to-schema map, in wire order) used on a cache miss, and the
operation response. -/
structure op_env where
  schemas_reply : List schema
  response : op_response

/-- Request body written by load_schema_async (table_impl.cpp:373): the
table id and nil for the version set. -/
def load_schema_request (t : table_state) : wire_stream :=
  [.wuuid t.id_msb t.id_lsb, .wnil]

/-- Response handling of load_schema_async (table_impl.cpp:379): an empty
schema map is a SchemaMissing failure; otherwise every entry is inserted
into the cache and the last entry is delivered. -/
def load_schema_response (t : table_state) (entries : List schema) :
    Except error_kind (table_state × schema) :=
  match entries with
  | [] => .error .schema_missing
  | e :: es =>
    .ok ({ t with cache := (e :: es).foldl (fun c s => c.add_schema s) t.cache },
      es.foldl (fun _ s => s) e)

/-- Outcome of table_impl::get_latest_schema_async (table_impl.cpp:356):
either the callback is invoked synchronously with the cache lookup result,
or load_schema_async is started. -/
inductive schema_fetch where
  | cached (s : Option schema)
  | load
  deriving DecidableEq

/-- table_impl::get_latest_schema_async (table_impl.cpp:356): snapshot the
latest version; when non-negative answer from the cache, otherwise load. -/
def get_latest_schema (c : schema_cache) : schema_fetch :=
  if 0 ≤ c.latest then .cached (c.lookup c.latest) else .load

/-- Schema resolution step of every data operation: a cache hit yields the
cached schema with no RPC; a cache miss issues the SCHEMAS_GET RPC and
consumes the schemas reply.  A null shared_ptr out of the cache (impossible
under cache_inv) is surfaced as a protocol error. -/
def resolve_schema (t : table_state) (env : op_env) :
    List rpc_call × Except error_kind schema :=
  match get_latest_schema t.cache with
  | .cached s =>
    ([], match s with
      | some sch => .ok sch
      | none => .error .protocol_error)
  | .load =>
    ([⟨.SCHEMAS_GET, load_schema_request t⟩],
      (load_schema_response t env.schemas_reply).map (fun r => r.2))

/-- table_impl::with_latest_schema_async.
Modelled from the spec (section 4.3): resolve the latest schema, short-
circuit the user callback on failure, otherwise run the operation body. -/
def with_latest_schema {A : Type} (t : table_state) (env : op_env)
    (body : schema → List rpc_call × Except error_kind A) :
    List rpc_call × Except error_kind A :=
  match resolve_schema t env with
  | (rpcs, .error e) => (rpcs, .error e)
  | (rpcs, .ok sch) =>
    let r := body sch
    (rpcs ++ r.1, r.2)

/-- cluster_connection::perform_request at the interface level: a writer
failure surfaces before any network write (scenario S6 of the spec); on
success the RPC is issued and the reader decodes the response. -/
def issue_request {A : Type} (op : client_operation)
    (req : Except error_kind wire_stream)
    (read : op_response → Except error_kind (A × wire_stream)) (env : op_env) :
    List rpc_call × Except error_kind A :=
  match req with
  | .error e => ([], .error e)
  | .ok tokens => ([⟨op, tokens⟩], (read env.response).map (fun r => r.1))

/-- cluster_connection::perform_request_wr: as issue_request but without a
response payload. -/
def issue_request_wr (op : client_operation)
    (req : Except error_kind wire_stream) :
    List rpc_call × Except error_kind Unit :=
  match req with
  | .error e => ([], .error e)
  | .ok tokens => ([⟨op, tokens⟩], .ok ())

/-- write_table_operation_header (table_impl.cpp:253): table id, nil in the
transaction slot, schema version. -/
def write_table_operation_header (t : table_state) (sch : schema) : wire_stream :=
  [.wuuid t.id_msb t.id_lsb, .wnil, .wi32 sch.version]

/-- Request of a single-tuple operation: header then one tuple payload. -/
def single_tuple_request (t : table_state) (sch : schema) (rec : ignite_tuple)
    (key_only : Bool) : Except error_kind wire_stream :=
  (write_tuple sch rec key_only).map
    (fun w => write_table_operation_header t sch ++ w)

/-- Request of a multi-tuple operation: header then counted tuple payloads. -/
def multi_tuple_request (t : table_state) (sch : schema)
    (recs : List ignite_tuple) (key_only : Bool) : Except error_kind wire_stream :=
  (write_tuples sch recs key_only).map
    (fun w => write_table_operation_header t sch ++ w)

/-- Request of replace_exact: header then the expected and the new tuple. -/
def two_tuple_request (t : table_state) (sch : schema)
    (rec new_rec : ignite_tuple) : Except error_kind wire_stream :=
  (write_tuple sch rec false).bind (fun w1 =>
    (write_tuple sch new_rec false).map (fun w2 =>
      write_table_operation_header t sch ++ w1 ++ w2))

/-- Transaction handle; only nullness is observable by this slice. -/
abbrev transaction := Unit

/-- transactions_not_implemented (table_impl.cpp:163): a non-null
transaction pointer fails the operation. -/
def transactions_not_implemented (tx : Option transaction) : Except error_kind Unit :=
  match tx with
  | some _ => .error .transactions_unsupported
  | none => .ok ()

/-- Reader closure of get_async (table_impl.cpp:409): no schema means an
empty optional without parsing; otherwise merge the request key back. -/
def tuple_get_reader (key : ignite_tuple) (resp : op_response) :
    Except error_kind (Option ignite_tuple × wire_stream) :=
  match resp.resolved_schema with
  | none => .ok (none, resp.body)
  | some sch => (read_tuple_with_key resp.body sch key).map (fun r => (some r.1, r.2))

/-- Reader closure of get_and_upsert_async (table_impl.cpp:485). -/
def get_and_upsert_reader (record : ignite_tuple) (resp : op_response) :
    Except error_kind (Option ignite_tuple × wire_stream) :=
  match resp.resolved_schema with
  | none => .ok (none, resp.body)
  | some sch => (read_tuple_with_key resp.body sch record).map (fun r => (some r.1, r.2))

/-- Reader closure of get_and_replace_async (table_impl.cpp:586). -/
def get_and_replace_reader (record : ignite_tuple) (resp : op_response) :
    Except error_kind (Option ignite_tuple × wire_stream) :=
  match resp.resolved_schema with
  | none => .ok (none, resp.body)
  | some sch => (read_tuple_with_key resp.body sch record).map (fun r => (some r.1, r.2))

/-- Reader closure of get_and_remove_async (table_impl.cpp:645). -/
def get_and_remove_reader (record : ignite_tuple) (resp : op_response) :
    Except error_kind (Option ignite_tuple × wire_stream) :=
  match resp.resolved_schema with
  | none => .ok (none, resp.body)
  | some sch => (read_tuple_with_key resp.body sch record).map (fun r => (some r.1, r.2))

/-- Reader closure of get_all_async (table_impl.cpp:434). -/
def get_all_reader (resp : op_response) :
    Except error_kind (List (Option ignite_tuple) × wire_stream) :=
  read_tuples_opt resp.body resp.resolved_schema false

/-- Reader closure of insert_all_async (table_impl.cpp:527). -/
def insert_all_reader (resp : op_response) :
    Except error_kind (List ignite_tuple × wire_stream) :=
  read_tuples resp.body resp.resolved_schema false

/-- Reader closure of remove_all_async (table_impl.cpp:669). -/
def remove_all_reader (resp : op_response) :
    Except error_kind (List ignite_tuple × wire_stream) :=
  read_tuples resp.body resp.resolved_schema true

/-- Reader closure of remove_all_exact_async (table_impl.cpp:690). -/
def remove_all_exact_reader (resp : op_response) :
    Except error_kind (List ignite_tuple × wire_stream) :=
  read_tuples resp.body resp.resolved_schema false

/-- Reader closure of the boolean-result operations. -/
def bool_reader (resp : op_response) : Except error_kind (Bool × wire_stream) :=
  read_bool resp.body

namespace table_impl

/-- table_impl::get_async (table_impl.cpp:397). -/
def get_async (t : table_state) (tx : Option transaction) (key : ignite_tuple)
    (env : op_env) : List rpc_call × Except error_kind (Option ignite_tuple) :=
  match transactions_not_implemented tx with
  | .error e => ([], .error e)
  | .ok _ =>
    with_latest_schema t env (fun sch =>
      issue_request .TUPLE_GET (single_tuple_request t sch key true)
        (tuple_get_reader key) env)

/-- table_impl::get_all_async (table_impl.cpp:422). -/
def get_all_async (t : table_state) (tx : Option transaction)
    (keys : List ignite_tuple) (env : op_env) :
    List rpc_call × Except error_kind (List (Option ignite_tuple)) :=
  match transactions_not_implemented tx with
  | .error e => ([], .error e)
  | .ok _ =>
    with_latest_schema t env (fun sch =>
      issue_request .TUPLE_GET_ALL (multi_tuple_request t sch keys true)
        get_all_reader env)

/-- table_impl::upsert_async (table_impl.cpp:444). -/
def upsert_async (t : table_state) (tx : Option transaction)
    (record : ignite_tuple) (env : op_env) :
    List rpc_call × Except error_kind Unit :=
  match transactions_not_implemented tx with
  | .error e => ([], .error e)
  | .ok _ =>
    with_latest_schema t env (fun sch =>
      issue_request_wr .TUPLE_UPSERT (single_tuple_request t sch record false))

/-- table_impl::upsert_all_async (table_impl.cpp:458). -/
def upsert_all_async (t : table_state) (tx : Option transaction)
    (records : List ignite_tuple) (env : op_env) :
    List rpc_call × Except error_kind Unit :=
  match transactions_not_implemented tx with
  | .error e => ([], .error e)
  | .ok _ =>
    with_latest_schema t env (fun sch =>
      issue_request_wr .TUPLE_UPSERT_ALL (multi_tuple_request t sch records false))

/-- table_impl::get_and_upsert_async (table_impl.cpp:474). -/
def get_and_upsert_async (t : table_state) (tx : Option transaction)
    (record : ignite_tuple) (env : op_env) :
    List rpc_call × Except error_kind (Option ignite_tuple) :=
  match transactions_not_implemented tx with
  | .error e => ([], .error e)
  | .ok _ =>
    with_latest_schema t env (fun sch =>
      issue_request .TUPLE_GET_AND_UPSERT (single_tuple_request t sch record false)
        (get_and_upsert_reader record) env)

/-- table_impl::insert_async (table_impl.cpp:498). -/
def insert_async (t : table_state) (tx : Option transaction)
    (record : ignite_tuple) (env : op_env) :
    List rpc_call × Except error_kind Bool :=
  match transactions_not_implemented tx with
  | .error e => ([], .error e)
  | .ok _ =>
    with_latest_schema t env (fun sch =>
      issue_request .TUPLE_INSERT (single_tuple_request t sch record false)
        bool_reader env)

/-- table_impl::insert_all_async (table_impl.cpp:515). -/
def insert_all_async (t : table_state) (tx : Option transaction)
    (records : List ignite_tuple) (env : op_env) :
    List rpc_call × Except error_kind (List ignite_tuple) :=
  match transactions_not_implemented tx with
  | .error e => ([], .error e)
  | .ok _ =>
    with_latest_schema t env (fun sch =>
      issue_request .TUPLE_INSERT_ALL (multi_tuple_request t sch records false)
        insert_all_reader env)

/-- table_impl::replace_async (table_impl.cpp:537). -/
def replace_async (t : table_state) (tx : Option transaction)
    (record : ignite_tuple) (env : op_env) :
    List rpc_call × Except error_kind Bool :=
  match transactions_not_implemented tx with
  | .error e => ([], .error e)
  | .ok _ =>
    with_latest_schema t env (fun sch =>
      issue_request .TUPLE_REPLACE (single_tuple_request t sch record false)
        bool_reader env)

/-- table_impl::replace_async on two records (table_impl.cpp:554). -/
def replace_exact_async (t : table_state) (tx : Option transaction)
    (record new_record : ignite_tuple) (env : op_env) :
    List rpc_call × Except error_kind Bool :=
  match transactions_not_implemented tx with
  | .error e => ([], .error e)
  | .ok _ =>
    with_latest_schema t env (fun sch =>
      issue_request .TUPLE_REPLACE_EXACT (two_tuple_request t sch record new_record)
        bool_reader env)

/-- table_impl::get_and_replace_async (table_impl.cpp:574). -/
def get_and_replace_async (t : table_state) (tx : Option transaction)
    (record : ignite_tuple) (env : op_env) :
    List rpc_call × Except error_kind (Option ignite_tuple) :=
  match transactions_not_implemented tx with
  | .error e => ([], .error e)
  | .ok _ =>
    with_latest_schema t env (fun sch =>
      issue_request .TUPLE_GET_AND_REPLACE (single_tuple_request t sch record false)
        (get_and_replace_reader record) env)

/-- table_impl::remove_async (table_impl.cpp:599). -/
def remove_async (t : table_state) (tx : Option transaction)
    (key : ignite_tuple) (env : op_env) :
    List rpc_call × Except error_kind Bool :=
  match transactions_not_implemented tx with
  | .error e => ([], .error e)
  | .ok _ =>
    with_latest_schema t env (fun sch =>
      issue_request .TUPLE_DELETE (single_tuple_request t sch key true)
        bool_reader env)

/-- table_impl::remove_exact_async (table_impl.cpp:616). -/
def remove_exact_async (t : table_state) (tx : Option transaction)
    (record : ignite_tuple) (env : op_env) :
    List rpc_call × Except error_kind Bool :=
  match transactions_not_implemented tx with
  | .error e => ([], .error e)
  | .ok _ =>
    with_latest_schema t env (fun sch =>
      issue_request .TUPLE_DELETE_EXACT (single_tuple_request t sch record false)
        bool_reader env)

/-- table_impl::get_and_remove_async (table_impl.cpp:633). -/
def get_and_remove_async (t : table_state) (tx : Option transaction)
    (key : ignite_tuple) (env : op_env) :
    List rpc_call × Except error_kind (Option ignite_tuple) :=
  match transactions_not_implemented tx with
  | .error e => ([], .error e)
  | .ok _ =>
    with_latest_schema t env (fun sch =>
      issue_request .TUPLE_GET_AND_DELETE (single_tuple_request t sch key true)
        (get_and_remove_reader key) env)

/-- table_impl::remove_all_async (table_impl.cpp:658). -/
def remove_all_async (t : table_state) (tx : Option transaction)
    (keys : List ignite_tuple) (env : op_env) :
    List rpc_call × Except error_kind (List ignite_tuple) :=
  match transactions_not_implemented tx with
  | .error e => ([], .error e)
  | .ok _ =>
    with_latest_schema t env (fun sch =>
      issue_request .TUPLE_DELETE_ALL (multi_tuple_request t sch keys true)
        remove_all_reader env)

/-- table_impl::remove_all_exact_async (table_impl.cpp:679). -/
def remove_all_exact_async (t : table_state) (tx : Option transaction)
    (records : List ignite_tuple) (env : op_env) :
    List rpc_call × Except error_kind (List ignite_tuple) :=
  match transactions_not_implemented tx with
  | .error e => ([], .error e)
  | .ok _ =>
    with_latest_schema t env (fun sch =>
      issue_request .TUPLE_DELETE_ALL_EXACT (multi_tuple_request t sch records false)
        remove_all_exact_reader env)

end table_impl

/-! ## Well-formedness -/

/-- Well-formed schema: the key prefix fits, and column names are pairwise
distinct under case-insensitive comparison. -/
@[reducible] def schema_wf (sch : schema) : Prop :=
  sch.key_column_count ≤ sch.columns.length ∧
    sch.columns.Pairwise (fun a b => fold_name a.name ≠ fold_name b.name)

/-- Well-formed record: field names are pairwise distinct under
case-insensitive comparison (the ignite_tuple class maintains this). -/
@[reducible] def record_wf (r : ignite_tuple) : Prop :=
  r.fields.Pairwise (fun a b => fold_name a.1 ≠ fold_name b.1)

/-- Every field of the record belongs to the schema and carries a non-empty
value matching the declared column type. -/
@[reducible] def record_matches (sch : schema) (r : ignite_tuple) : Prop :=
  ∀ p ∈ r.fields, ∃ c ∈ sch.columns, fold_name c.name = fold_name p.1 ∧
    ((p.2.map (value_matches c.type)).getD false) = true

/-- Serialization precondition on a column list: whenever the record has a
column of that name, its value is non-empty and well-typed for the column. -/
def cols_ok (r : ignite_tuple) (cols : List column) : Prop :=
  ∀ c ∈ cols, ∀ j, r.column_ordinal? c.name = some j →
    ∃ tv, r.val_at j = some (some tv) ∧ value_matches c.type tv = true

/-! ## Concrete instances used by witnesses and counterexamples -/

/-- Two-column schema: an INT64 key column and a STRING value column. -/
def wSchema : schema :=
  ⟨1, 1, [⟨"id", .INT64, false, true⟩, ⟨"name", .STRING, false, false⟩]⟩

/-- Second schema version, key column only. -/
def wSchema2 : schema :=
  ⟨2, 1, [⟨"id", .INT64, false, true⟩]⟩

/-- Record carrying only the key column of wSchema. -/
def wKeyRecord : ignite_tuple :=
  ⟨[("id", some (.vint64 42))]⟩

/-- Record carrying both columns of wSchema. -/
def wFullRecord : ignite_tuple :=
  ⟨[("id", some (.vint64 42)), ("name", some (.vstring [97, 98]))]⟩

/-- Record produced by the key-merging read over wSchema with wKeyRecord and
a one-field response tuple holding the string payload [97, 98]. -/
def wMergedRecord : ignite_tuple :=
  ⟨[("id", some (.vint64 42)), ("name", some (.vstring [97, 98]))]⟩

/-- Table handle with an empty schema cache. -/
def wTable : table_state :=
  ⟨1, 2, schema_cache.empty⟩

/-- wTable after loading the schema map with versions 1 and 2. -/
def wTableLoaded : table_state :=
  ⟨1, 2, ⟨2, [(2, wSchema2), (1, wSchema)]⟩⟩

/-! ## Record lemmas -/

theorem find_ordinal_eq_none {name : String} {l : List (String × any_value)} :
    find_ordinal name l = none ↔ ∀ p ∈ l, fold_name p.1 ≠ fold_name name := by
  induction l with
  | nil => simp [find_ordinal]
  | cons p rest ih =>
    by_cases h : fold_name p.1 = fold_name name
    · simp [find_ordinal, h]
    · simp [find_ordinal, h, ih]

theorem find_ordinal_eq_some {name : String} {l : List (String × any_value)} :
    ∀ {j : Nat}, find_ordinal name l = some j →
      ∃ p, l[j]? = some p ∧ fold_name p.1 = fold_name name := by
  induction l with
  | nil => intro j h; simp [find_ordinal] at h
  | cons p rest ih =>
    intro j h
    by_cases hh : fold_name p.1 = fold_name name
    · simp [find_ordinal, hh] at h
      exact ⟨p, by simp [← h], hh⟩
    · simp [find_ordinal, hh] at h
      obtain ⟨i, hi, hij⟩ := h
      obtain ⟨q, hq1, hq2⟩ := ih hi
      exact ⟨q, by simp [← hij, hq1], hq2⟩

theorem find_ordinal_self {l : List (String × any_value)}
    (hw : l.Pairwise (fun a b => fold_name a.1 ≠ fold_name b.1)) :
    ∀ {k : Nat} {p : String × any_value}, l[k]? = some p →
      find_ordinal p.1 l = some k := by
  induction l with
  | nil => intro k p h; simp at h
  | cons q rest ih =>
    intro k p h
    match k with
    | 0 =>
      simp at h
      simp [find_ordinal, h]
    | k' + 1 =>
      simp at h
      have hpmem : p ∈ rest := by
        obtain ⟨hk, he⟩ := List.getElem?_eq_some.mp h
        exact he ▸ List.getElem_mem hk
      have hne : fold_name q.1 ≠ fold_name p.1 := (List.pairwise_cons.mp hw).1 p hpmem
      simp [find_ordinal, hne, ih (List.pairwise_cons.mp hw).2 h]

theorem get_by_name_at {fields : List (String × any_value)}
    (hw : fields.Pairwise (fun a b => fold_name a.1 ≠ fold_name b.1))
    {k : Nat} {p : String × any_value} (hk : fields[k]? = some p) :
    (ignite_tuple.mk fields).get_by_name p.1 = some p.2 := by
  unfold ignite_tuple.get_by_name ignite_tuple.column_ordinal?
  rw [find_ordinal_self hw hk]
  simp [ignite_tuple.val_at, hk]

theorem set_fresh {t : ignite_tuple} {name : String} {v : any_value}
    (h : t.column_ordinal? name = none) :
    (t.set name v).fields = t.fields ++ [(name, v)] := by
  unfold ignite_tuple.set
  rw [h]

theorem set_foldl_fields {l : List (String × any_value)} :
    ∀ (t : ignite_tuple), (∀ p ∈ l, t.column_ordinal? p.1 = none) →
      l.Pairwise (fun a b => fold_name a.1 ≠ fold_name b.1) →
      (l.foldl (fun acc p => acc.set p.1 p.2) t).fields = t.fields ++ l := by
  induction l with
  | nil => intro t _ _; simp
  | cons p rest ih =>
    intro t hfresh hw
    have hstep : (t.set p.1 p.2).fields = t.fields ++ [(p.1, p.2)] :=
      set_fresh (hfresh p (by simp))
    have hfresh2 : ∀ q ∈ rest, (t.set p.1 p.2).column_ordinal? q.1 = none := by
      intro q hq
      unfold ignite_tuple.column_ordinal?
      rw [hstep, find_ordinal_eq_none]
      intro x hx
      rcases List.mem_append.mp hx with hx1 | hx2
      · have : t.column_ordinal? q.1 = none := hfresh q (by simp [hq])
        exact (find_ordinal_eq_none.mp this) x hx1
      · simp at hx2
        rw [hx2]
        exact (List.pairwise_cons.mp hw).1 q hq
    calc ((p :: rest).foldl (fun acc q => acc.set q.1 q.2) t).fields
        = (rest.foldl (fun acc q => acc.set q.1 q.2) (t.set p.1 p.2)).fields := by simp
      _ = (t.set p.1 p.2).fields ++ rest := ih _ hfresh2 (List.pairwise_cons.mp hw).2
      _ = t.fields ++ (p :: rest) := by rw [hstep]; simp

theorem build_record_fields {l : List (String × any_value)}
    (hw : l.Pairwise (fun a b => fold_name a.1 ≠ fold_name b.1)) :
    (build_record l).fields = l := by
  unfold build_record
  rw [set_foldl_fields ignite_tuple.empty (fun p _ => rfl) hw]
  rfl

/-! ## Codec lemmas -/

theorem decode_encode_value {typ : ignite_type} {tv : typed_value}
    (h : value_matches typ tv = true) :
    ∃ bs, encode_column_value typ (some tv) = .ok bs ∧
      decode_column_value typ bs = .ok tv := by
  cases typ <;> cases tv <;> simp [value_matches] at h
  case INT8.vint8 n =>
    refine ⟨intToLE 1 n, rfl, ?_⟩
    simp only [decode_column_value, intToLE_length, if_true]
    rw [leToInt_intToLE 1 (by norm_num) n (by norm_num; omega) (by norm_num; omega)]
  case INT16.vint16 n =>
    refine ⟨intToLE 2 n, rfl, ?_⟩
    simp only [decode_column_value, intToLE_length, if_true]
    rw [leToInt_intToLE 2 (by norm_num) n (by norm_num; omega) (by norm_num; omega)]
  case INT32.vint32 n =>
    refine ⟨intToLE 4 n, rfl, ?_⟩
    simp only [decode_column_value, intToLE_length, if_true]
    rw [leToInt_intToLE 4 (by norm_num) n (by norm_num; omega) (by norm_num; omega)]
  case INT64.vint64 n =>
    refine ⟨intToLE 8 n, rfl, ?_⟩
    simp only [decode_column_value, intToLE_length, if_true]
    rw [leToInt_intToLE 8 (by norm_num) n (by norm_num; omega) (by norm_num; omega)]
  case FLOAT.vfloat b =>
    refine ⟨natToLE 4 b, rfl, ?_⟩
    simp only [decode_column_value, natToLE_length, if_true]
    rw [leToNat_natToLE 4 b (by norm_num; omega)]
  case DOUBLE.vdouble b =>
    refine ⟨natToLE 8 b, rfl, ?_⟩
    simp only [decode_column_value, natToLE_length, if_true]
    rw [leToNat_natToLE 8 b (by norm_num; omega)]
  case UUID.vuuid m l =>
    refine ⟨intToBE 8 m ++ intToBE 8 l, rfl, ?_⟩
    have hlen : (intToBE 8 m ++ intToBE 8 l).length = 16 := by
      simp [intToBE_length]
    simp only [decode_column_value, hlen, if_true]
    rw [List.take_left' (intToBE_length 8 m), List.drop_left' (intToBE_length 8 m)]
    rw [beToInt_intToBE 8 (by norm_num) m (by norm_num; omega) (by norm_num; omega)]
    rw [beToInt_intToBE 8 (by norm_num) l (by norm_num; omega) (by norm_num; omega)]
  case STRING.vstring bs => exact ⟨bs, rfl, rfl⟩
  case BINARY.vbinary bs => exact ⟨bs, rfl, rfl⟩

theorem read_binary_inv {s : wire_stream} {d : tuple_data} {rest : wire_stream}
    (h : read_binary s = .ok (d, rest)) : s = .wbin d :: rest := by
  cases s with
  | nil => simp [read_binary] at h
  | cons w s2 =>
    cases w with
    | wbin data =>
      simp [read_binary] at h
      simp [h.1, h.2]
    | wnil => simp [read_binary] at h
    | wi32 v => simp [read_binary] at h
    | wbool b => simp [read_binary] at h
    | wuuid a b => simp [read_binary] at h
    | wbitset bytes => simp [read_binary] at h

theorem read_columns_names :
    ∀ (cols : List column) (p : binary_tuple_parse_state) (l : List (String × any_value))
      (p2 : binary_tuple_parse_state),
      read_columns p cols = .ok (l, p2) → l.map Prod.fst = cols.map column.name := by
  intro cols
  induction cols with
  | nil =>
    intro p l p2 h
    simp [read_columns] at h
    simp [h.1]
  | cons c rest ih =>
    intro p l p2 h
    simp only [read_columns, bind, Except.bind] at h
    split at h
    · exact absurd h (by simp)
    · rename_i vp heq
      obtain ⟨v, p1⟩ := vp
      simp only [] at h
      split at h
      · exact absurd h (by simp)
      · rename_i lp heq2
        obtain ⟨l2, p3⟩ := lp
        simp at h
        obtain ⟨h1, h2⟩ := h
        subst h1
        simp [ih _ _ _ heq2]

theorem merge_read_columns_spec {key : ignite_tuple} {keycnt : Nat} :
    ∀ (cols : List column) (parser : binary_tuple_parse_state) (i : Nat)
      (l : List (String × any_value)) (p2 : binary_tuple_parse_state),
      merge_read_columns key parser keycnt cols i = .ok (l, p2) →
      l.map Prod.fst = cols.map column.name ∧
      (∀ k c, cols[k]? = some c → i + k < keycnt →
        (l[k]?).map Prod.snd = key.get_by_name c.name) := by
  intro cols
  induction cols with
  | nil =>
    intro parser i l p2 h
    simp [merge_read_columns] at h
    refine ⟨by simp [h.1], ?_⟩
    intro k c hc
    simp at hc
  | cons c rest ih =>
    intro parser i l p2 h
    simp only [merge_read_columns] at h
    by_cases hkey : i < keycnt
    · rw [if_pos hkey] at h
      cases hget : key.get_by_name c.name with
      | none => rw [hget] at h; simp [Except.map] at h
      | some v =>
        rw [hget] at h
        cases hrec : merge_read_columns key parser keycnt rest (i + 1) with
        | error e => rw [hrec] at h; simp [Except.map] at h
        | ok lp =>
          obtain ⟨l2, p3⟩ := lp
          rw [hrec] at h
          simp [Except.map] at h
          obtain ⟨h1, h2⟩ := h
          subst h1
          obtain ⟨hn, hv⟩ := ih _ _ _ _ hrec
          refine ⟨by simp [hn], ?_⟩
          intro k c2 hc2 hik
          match k with
          | 0 =>
            simp at hc2
            subst hc2
            simp [hget]
          | k2 + 1 =>
            simp at hc2
            have : (i + 1) + k2 < keycnt := by omega
            have hvk := hv k2 c2 hc2 this
            simpa using hvk
    · rw [if_neg hkey] at h
      simp only [bind, Except.bind] at h
      split at h
      · exact absurd h (by simp)
      · rename_i vp heq
        obtain ⟨v, p1⟩ := vp
        simp only [] at h
        split at h
        · exact absurd h (by simp)
        · rename_i lp heq2
          obtain ⟨l2, p3⟩ := lp
          simp at h
          obtain ⟨h1, h2⟩ := h
          subst h1
          obtain ⟨hn, _⟩ := ih _ _ _ _ heq2
          refine ⟨by simp [hn], ?_⟩
          intro k c2 hc2 hik
          omega

theorem append_columns_bits {r : ignite_tuple} :
    ∀ (cols : List column) (i : Nat) (es : tuple_data) (bits : Nat),
      append_columns r cols i = .ok (es, bits) →
      es.length = cols.length ∧
      (∀ idx c, cols[idx]? = some c →
        bits.testBit (i + idx) = (r.column_ordinal? c.name).isNone ∧
          ((r.column_ordinal? c.name).isNone = true → es[idx]? = some none)) ∧
      (∀ k, k < i ∨ i + cols.length ≤ k → bits.testBit k = false) := by
  intro cols
  induction cols with
  | nil =>
    intro i es bits h
    simp [append_columns] at h
    obtain ⟨he, hb⟩ := h
    subst he
    subst hb
    refine ⟨rfl, ?_, ?_⟩
    · intro idx c hc; simp at hc
    · intro k _; exact Nat.zero_testBit k
  | cons c rest ih =>
    intro i es bits h
    simp only [append_columns] at h
    cases hord : r.column_ordinal? c.name with
    | some j =>
      rw [hord] at h
      simp only [] at h
      cases hac : append_column c.type j r with
      | error e => rw [hac] at h; simp [Except.bind] at h
      | ok bs =>
        rw [hac] at h
        cases har : append_columns r rest (i + 1) with
        | error e => rw [har] at h; simp [Except.bind, Except.map] at h
        | ok p =>
          obtain ⟨es2, bits2⟩ := p
          rw [har] at h
          simp [Except.bind, Except.map] at h
          obtain ⟨h1, h2⟩ := h
          subst h1
          subst h2
          obtain ⟨ihl, ihc, ihz⟩ := ih (i + 1) es2 bits2 har
          refine ⟨by simp [ihl], ?_, ?_⟩
          · intro idx c2 hc2
            match idx with
            | 0 =>
              simp at hc2
              subst hc2
              rw [hord]
              simp only [Option.isNone_some]
              refine ⟨?_, by simp⟩
              have := ihz i (by omega)
              simpa using this
            | idx2 + 1 =>
              simp at hc2
              have heq : i + (idx2 + 1) = (i + 1) + idx2 := by omega
              rw [heq]
              have := ihc idx2 c2 hc2
              simpa using this
          · intro k hk
            simp only [List.length_cons] at hk
            exact ihz k (by omega)
    | none =>
      rw [hord] at h
      simp only [] at h
      cases har : append_columns r rest (i + 1) with
      | error e => rw [har] at h; simp [Except.map] at h
      | ok p =>
        obtain ⟨es2, bits2⟩ := p
        rw [har] at h
        simp [Except.map] at h
        obtain ⟨h1, h2⟩ := h
        subst h1
        subst h2
        obtain ⟨ihl, ihc, ihz⟩ := ih (i + 1) es2 bits2 har
        have hshift : (1 <<< i) = 2 ^ i := by rw [Nat.shiftLeft_eq, one_mul]
        refine ⟨by simp [ihl], ?_, ?_⟩
        · intro idx c2 hc2
          match idx with
          | 0 =>
            simp at hc2
            subst hc2
            rw [hord]
            simp only [Option.isNone_none]
            constructor
            · rw [Nat.testBit_lor, hshift]
              have hz : bits2.testBit (i + 0) = false := by
                have := ihz i (by omega)
                simpa using this
              simp at hz
              simp [hz, Nat.testBit_two_pow_self]
            · intro _
              simp
          | idx2 + 1 =>
            simp at hc2
            have heq : i + (idx2 + 1) = (i + 1) + idx2 := by omega
            rw [Nat.testBit_lor, hshift, heq]
            have hpow : (2 ^ i).testBit ((i + 1) + idx2) = false :=
              Nat.testBit_two_pow_of_ne (by omega)
            have := ihc idx2 c2 hc2
            simp only [hpow, Bool.or_false]
            simpa using this
        · intro k hk
          simp only [List.length_cons] at hk
          rw [Nat.testBit_lor, hshift]
          have h1 : bits2.testBit k = false := ihz k (by omega)
          have h2 : (2 ^ i).testBit k = false := Nat.testBit_two_pow_of_ne (by omega)
          simp [h1, h2]

theorem claim_columns_ok {r : ignite_tuple} :
    ∀ (cols : List column), cols_ok r cols → claim_columns r cols = .ok () := by
  intro cols
  induction cols with
  | nil => intro _; rfl
  | cons c rest ih =>
    intro hok
    have hrest : cols_ok r rest := fun c2 hc2 => hok c2 (by simp [hc2])
    simp only [claim_columns]
    cases hord : r.column_ordinal? c.name with
    | none => exact ih hrest
    | some j =>
      obtain ⟨tv, hval, hmatch⟩ := hok c (by simp) j hord
      obtain ⟨bs, henc, _⟩ := decode_encode_value hmatch
      have hclaim : claim_column c.type j r = .ok () := by
        simp [claim_column, hval, henc, Except.map]
      simp only []
      rw [hclaim]
      simp only [Except.bind]
      exact ih hrest

theorem pack_read_roundtrip {r : ignite_tuple} :
    ∀ (cols : List column) (i : Nat), cols_ok r cols →
      ∃ es bits, append_columns r cols i = .ok (es, bits) ∧
        es.length = cols.length ∧
        ∃ l, read_columns ⟨cols.length, es⟩ cols = .ok (l, ⟨0, []⟩) ∧
          l.map Prod.fst = cols.map column.name ∧
          (∀ (k : Nat) (c : column), cols[k]? = some c →
            (l[k]?).map Prod.snd =
              some ((r.column_ordinal? c.name).elim none
                (fun j => (r.val_at j).getD none))) := by
  intro cols
  induction cols with
  | nil =>
    intro i _
    refine ⟨[], 0, rfl, rfl, [], rfl, rfl, ?_⟩
    intro k c hc
    simp at hc
  | cons c rest ih =>
    intro i hok
    have hrest : cols_ok r rest := fun c2 hc2 => hok c2 (by simp [hc2])
    obtain ⟨es2, bits2, hap, hlen, l2, hread, hnames, hvals⟩ := ih (i + 1) hrest
    cases hord : r.column_ordinal? c.name with
    | some j =>
      obtain ⟨tv, hval, hmatch⟩ := hok c (by simp) j hord
      obtain ⟨bs, henc, hdec⟩ := decode_encode_value hmatch
      have hac : append_column c.type j r = .ok bs := by
        simp [append_column, hval, henc]
      refine ⟨some bs :: es2, bits2, ?_, by simp [hlen], ?_⟩
      · simp only [append_columns, hord, hac, hap, Except.bind, Except.map]
      · have hnext : read_next_column ⟨rest.length + 1, some bs :: es2⟩ c.type =
            .ok (some tv, ⟨rest.length, es2⟩) := by
          simp only [read_next_column, binary_tuple_parse_state.get_next, bind, Except.bind, hdec,
            Except.map]
        refine ⟨(c.name, some tv) :: l2, ?_, by simp [hnames], ?_⟩
        · show read_columns ⟨rest.length + 1, some bs :: es2⟩ (c :: rest) = _
          simp only [read_columns, bind, Except.bind, hnext, hread]
        · intro k c2 hc2
          match k with
          | 0 =>
            simp at hc2
            subst hc2
            simp [hord, hval]
          | k2 + 1 =>
            simp at hc2
            have := hvals k2 c2 hc2
            simpa using this
    | none =>
      refine ⟨none :: es2, bits2 ||| (1 <<< i), ?_, by simp [hlen], ?_⟩
      · simp only [append_columns, hord, hap, Except.bind, Except.map]
      · have hnext : read_next_column ⟨rest.length + 1, none :: es2⟩ c.type =
            .ok (none, ⟨rest.length, es2⟩) := by
          simp only [read_next_column, binary_tuple_parse_state.get_next, bind, Except.bind]
        refine ⟨(c.name, none) :: l2, ?_, by simp [hnames], ?_⟩
        · show read_columns ⟨rest.length + 1, none :: es2⟩ (c :: rest) = _
          simp only [read_columns, bind, Except.bind, hnext, hread]
        · intro k c2 hc2
          match k with
          | 0 =>
            simp at hc2
            subst hc2
            simp [hord]
          | k2 + 1 =>
            simp at hc2
            have := hvals k2 c2 hc2
            simpa using this

theorem list_pairwise_fold_of_names {l : List (String × any_value)} {cols : List column}
    (hn : l.map Prod.fst = cols.map column.name)
    (hpw : cols.Pairwise (fun a b => fold_name a.name ≠ fold_name b.name)) :
    l.Pairwise (fun a b => fold_name a.1 ≠ fold_name b.1) := by
  have h1 : (l.map Prod.fst).Pairwise (fun a b => fold_name a ≠ fold_name b) := by
    rw [hn]
    exact (List.pairwise_map (R := fun a b => fold_name a ≠ fold_name b)).mpr hpw
  exact (List.pairwise_map (R := fun a b => fold_name a ≠ fold_name b)).mp h1

theorem read_tuple_fields {stream : wire_stream} {sch : schema} {key_only : Bool}
    {res : ignite_tuple} {rest2 : wire_stream}
    (hwf : schema_wf sch)
    (h : read_tuple stream sch key_only = .ok (res, rest2)) :
    res.fields.map Prod.fst = (sch.columns.take (count_of sch key_only)).map column.name ∧
    res.size = count_of sch key_only ∧
    ∃ d, stream = .wbin d :: rest2 := by
  simp only [read_tuple, bind, Except.bind] at h
  split at h
  · exact absurd h (by simp)
  · rename_i dp heq
    obtain ⟨d, rest⟩ := dp
    simp only [] at h
    split at h
    · exact absurd h (by simp)
    · rename_i lp heq2
      obtain ⟨l, p2⟩ := lp
      simp at h
      obtain ⟨h1, h2⟩ := h
      have hn := read_columns_names _ _ _ _ heq2
      have hcolpw : (sch.columns.take (count_of sch key_only)).Pairwise
          (fun a b => fold_name a.name ≠ fold_name b.name) :=
        List.Pairwise.sublist (List.take_sublist _ _) hwf.2
      have hlpw := list_pairwise_fold_of_names hn hcolpw
      have hfields : res.fields = l := by
        rw [← h1]
        exact build_record_fields hlpw
      refine ⟨by rw [hfields]; exact hn, ?_, ⟨d, read_binary_inv (h2 ▸ heq)⟩⟩
      have hsz : res.size = l.length := by
        unfold ignite_tuple.size
        rw [hfields]
      have hlen2 : l.length = (sch.columns.take (count_of sch key_only)).length := by
        have := congrArg List.length hn
        simpa using this
      rw [hsz, hlen2, List.length_take]
      have hk := hwf.1
      unfold count_of
      cases key_only
      · simp
      · simpa using Nat.min_eq_left hk

theorem read_tuples_loop_fields {sch : schema} {key_only : Bool} (hwf : schema_wf sch) :
    ∀ (n : Nat) (stream : wire_stream) (ts : List ignite_tuple) (s2 : wire_stream),
      read_tuples_loop sch key_only n stream = .ok (ts, s2) →
      ∀ tup ∈ ts, tup.fields.map Prod.fst =
        (sch.columns.take (count_of sch key_only)).map column.name := by
  intro n
  induction n with
  | zero =>
    intro stream ts s2 h
    simp [read_tuples_loop] at h
    intro tup htup
    rw [h.1] at htup
    simp at htup
  | succ n ih =>
    intro stream ts s2 h
    simp only [read_tuples_loop, bind, Except.bind] at h
    split at h
    · exact absurd h (by simp)
    · rename_i tp heq
      obtain ⟨t, s1⟩ := tp
      simp only [] at h
      split at h
      · exact absurd h (by simp)
      · rename_i tsp heq2
        obtain ⟨ts2, s3⟩ := tsp
        simp at h
        obtain ⟨h1, h2⟩ := h
        rw [← h1]
        intro tup htup
        rcases List.mem_cons.mp htup with hh | hh
        · rw [hh]
          exact (read_tuple_fields hwf heq).1
        · exact ih _ _ _ heq2 tup hh

theorem read_tuples_fields {stream : wire_stream} {sch : schema} {key_only : Bool}
    {ts : List ignite_tuple} {s2 : wire_stream}
    (hwf : schema_wf sch)
    (h : read_tuples stream (some sch) key_only = .ok (ts, s2)) :
    ∀ tup ∈ ts, tup.fields.map Prod.fst =
      (sch.columns.take (count_of sch key_only)).map column.name := by
  simp only [read_tuples, bind, Except.bind] at h
  split at h
  · exact absurd h (by simp)
  · rename_i np heq
    obtain ⟨cnt, s1⟩ := np
    exact read_tuples_loop_fields hwf _ _ _ _ h

theorem read_tuple_with_key_spec {stream : wire_stream} {sch : schema}
    {key res : ignite_tuple} {rest2 : wire_stream}
    (hwf : schema_wf sch)
    (h : read_tuple_with_key stream sch key = .ok (res, rest2)) :
    res.fields.map Prod.fst = sch.columns.map column.name ∧
    (∀ (i : Nat) (c : column), sch.columns[i]? = some c → i < sch.key_column_count →
      res.get_by_name c.name = key.get_by_name c.name) ∧
    ∃ d, stream = .wbin d :: rest2 := by
  simp only [read_tuple_with_key, bind, Except.bind] at h
  split at h
  · exact absurd h (by simp)
  · rename_i dp heq
    obtain ⟨d, rest⟩ := dp
    simp only [] at h
    split at h
    · exact absurd h (by simp)
    · rename_i lp heq2
      obtain ⟨l, p2⟩ := lp
      simp at h
      obtain ⟨h1, h2⟩ := h
      obtain ⟨hn, hv⟩ := merge_read_columns_spec _ _ _ _ _ heq2
      have hlpw := list_pairwise_fold_of_names hn hwf.2
      have hfields : res.fields = l := by
        rw [← h1]
        exact build_record_fields hlpw
      refine ⟨by rw [hfields]; exact hn, ?_, ⟨d, read_binary_inv (h2 ▸ heq)⟩⟩
      intro i c hc hik
      have hlen : l.length = sch.columns.length := by
        have := congrArg List.length hn
        simpa using this
      have hi : i < l.length := by
        rw [hlen]
        exact (List.getElem?_eq_some.mp hc).1
      have hsome : ∃ p, l[i]? = some p := by
        cases hl : l[i]? with
        | none =>
          rw [List.getElem?_eq_none_iff] at hl
          omega
        | some p => exact ⟨p, rfl⟩
      obtain ⟨p, hp⟩ := hsome
      have hname : p.1 = c.name := by
        have hmap : (l.map Prod.fst)[i]? = (sch.columns.map column.name)[i]? := by rw [hn]
        rw [List.getElem?_map, List.getElem?_map, hp, hc] at hmap
        simpa using hmap
      have hval := hv i c hc (by omega)
      rw [hp] at hval
      simp at hval
      have hres : res = ⟨l⟩ := by
        cases res
        simpa using hfields
      have hg : (ignite_tuple.mk l).get_by_name c.name = some p.2 :=
        hname ▸ get_by_name_at hlpw hp
      rw [hres, hg]
      exact hval

theorem col_eq_of_fold_eq {cols : List column}
    (hpw : cols.Pairwise (fun a b => fold_name a.name ≠ fold_name b.name)) :
    ∀ {c1 c2 : column}, c1 ∈ cols → c2 ∈ cols →
      fold_name c1.name = fold_name c2.name → c1 = c2 := by
  induction cols with
  | nil => intro c1 c2 h1; simp at h1
  | cons a rest ih =>
    intro c1 c2 h1 h2 he
    obtain ⟨hhead, htail⟩ := List.pairwise_cons.mp hpw
    rcases List.mem_cons.mp h1 with ha1 | ha1 <;> rcases List.mem_cons.mp h2 with ha2 | ha2
    · rw [ha1, ha2]
    · exact absurd he (ha1 ▸ hhead c2 ha2)
    · exact absurd he.symm (ha2 ▸ hhead c1 ha1)
    · exact ih htail ha1 ha2 he

theorem get_by_name_from_names {l : List (String × any_value)} {cols : List column}
    (hn : l.map Prod.fst = cols.map column.name)
    (hpw : cols.Pairwise (fun a b => fold_name a.name ≠ fold_name b.name))
    {k : Nat} {c : column} (hc : cols[k]? = some c) :
    ∃ p, l[k]? = some p ∧ p.1 = c.name ∧
      (build_record l).get_by_name c.name = some p.2 := by
  have hlpw := list_pairwise_fold_of_names hn hpw
  have hlen : l.length = cols.length := by
    have := congrArg List.length hn
    simpa using this
  have hi : k < l.length := by
    rw [hlen]
    exact (List.getElem?_eq_some.mp hc).1
  have hsome : ∃ p, l[k]? = some p := by
    cases hl : l[k]? with
    | none =>
      rw [List.getElem?_eq_none_iff] at hl
      omega
    | some p => exact ⟨p, rfl⟩
  obtain ⟨p, hp⟩ := hsome
  have hname : p.1 = c.name := by
    have hmap : (l.map Prod.fst)[k]? = (cols.map column.name)[k]? := by rw [hn]
    rw [List.getElem?_map, List.getElem?_map, hp, hc] at hmap
    simpa using hmap
  refine ⟨p, hp, hname, ?_⟩
  have hfields : (build_record l).fields = l := build_record_fields hlpw
  have hres : build_record l = ⟨l⟩ := by
    cases hbr : build_record l
    rw [hbr] at hfields
    simpa using hfields
  rw [hres, ← hname]
  exact get_by_name_at hlpw hp

/-! ## Schema cache lemmas -/

theorem lookup_add_schema_self (c : schema_cache) (s : schema) :
    (c.add_schema s).lookup s.version = some s := by
  simp [schema_cache.lookup, schema_cache.add_schema, List.find?]

theorem lookup_add_schema_preserve {c : schema_cache} {v : Int} (s : schema)
    (h : (c.lookup v).isSome = true) : ((c.add_schema s).lookup v).isSome = true := by
  unfold schema_cache.lookup schema_cache.add_schema at *
  cases hv : (s.version == v) with
  | true => simp [List.find?, hv]
  | false =>
    simp only [List.find?, hv]
    simpa using h

theorem foldl_add_preserve (entries : List schema) :
    ∀ (c : schema_cache) (v : Int), (c.lookup v).isSome = true →
      ((entries.foldl (fun c s => c.add_schema s) c).lookup v).isSome = true := by
  induction entries with
  | nil => intro c v h; simpa using h
  | cons e rest ih =>
    intro c v h
    simp only [List.foldl_cons]
    exact ih _ _ (lookup_add_schema_preserve e h)

theorem foldl_add_mem {entries : List schema} :
    ∀ (c : schema_cache) (s : schema), s ∈ entries →
      ((entries.foldl (fun c s => c.add_schema s) c).lookup s.version).isSome = true := by
  induction entries with
  | nil => intro c s h; simp at h
  | cons e rest ih =>
    intro c s h
    simp only [List.foldl_cons]
    rcases List.mem_cons.mp h with h1 | h2
    · subst h1
      exact foldl_add_preserve rest _ _ (by rw [lookup_add_schema_self]; rfl)
    · exact ih _ _ h2

theorem cache_inv_empty : cache_inv schema_cache.empty := by
  unfold cache_inv schema_cache.empty
  refine ⟨by simp, by simp, ?_⟩
  intro h
  simp at h

theorem cache_inv_add {c : schema_cache} {s : schema}
    (h : cache_inv c) (hv : 0 ≤ s.version) : cache_inv (c.add_schema s) := by
  obtain ⟨h1, h2, h3⟩ := h
  have hmaxr := le_max_right c.latest s.version
  have hmaxl := le_max_left c.latest s.version
  refine ⟨?_, ?_, ?_⟩
  · constructor
    · intro he
      simp [schema_cache.add_schema] at he
    · intro hl
      exfalso
      simp [schema_cache.add_schema] at hl
      omega
  · intro p hp
    simp only [schema_cache.add_schema, List.mem_cons] at hp
    rcases hp with hp | hp
    · rw [hp]
      simp only [schema_cache.add_schema]
      omega
    · have := h2 p hp
      simp only [schema_cache.add_schema]
      omega
  · intro hl
    by_cases hcase : c.latest ≤ s.version
    · have hmax : (c.add_schema s).latest = s.version := by
        simp [schema_cache.add_schema, max_eq_right hcase]
      rw [hmax, lookup_add_schema_self]
      rfl
    · have hmax : (c.add_schema s).latest = c.latest := by
        simp [schema_cache.add_schema, max_eq_left (le_of_not_le hcase)]
      rw [hmax]
      apply lookup_add_schema_preserve
      apply h3
      rw [hmax] at hl
      exact hl

theorem foldl_const_last : ∀ (es : List schema) (e : schema),
    es.foldl (fun _ s => s) e = (e :: es).getLast (List.cons_ne_nil e es) := by
  intro es
  induction es with
  | nil => intro e; rfl
  | cons e2 es2 ih =>
    intro e
    simp only [List.foldl_cons]
    rw [ih e2]
    rw [List.getLast_cons (List.cons_ne_nil e2 es2)]

theorem column_ordinal_neg_iff {r : ignite_tuple} {name : String} :
    r.column_ordinal name < 0 ↔ (r.column_ordinal? name).isNone = true := by
  unfold ignite_tuple.column_ordinal
  cases h : r.column_ordinal? name with
  | none => simp
  | some i =>
    simp only [Option.isNone_some]
    constructor
    · intro hlt
      exact absurd hlt (by omega)
    · intro hft
      simp at hft

/-! ## Claims -/

/-- C1: every public data operation (get, get_all, upsert, upsert_all,
get_and_upsert, insert, insert_all, replace, replace_exact, get_and_replace,
remove, remove_exact, get_and_remove, remove_all, remove_all_exact) invoked
with a non-null transaction handle surfaces a TransactionsUnsupported error
to the user callback and issues zero RPCs on the connection. -/
theorem claim_C1_transaction_gate :
    ∀ (u : transaction) (t : table_state) (env : op_env) (k r nr : ignite_tuple)
      (ks rs : List ignite_tuple),
      table_impl.get_async t (some u) k env = ([], .error .transactions_unsupported) ∧
      table_impl.get_all_async t (some u) ks env = ([], .error .transactions_unsupported) ∧
      table_impl.upsert_async t (some u) r env = ([], .error .transactions_unsupported) ∧
      table_impl.upsert_all_async t (some u) rs env = ([], .error .transactions_unsupported) ∧
      table_impl.get_and_upsert_async t (some u) r env = ([], .error .transactions_unsupported) ∧
      table_impl.insert_async t (some u) r env = ([], .error .transactions_unsupported) ∧
      table_impl.insert_all_async t (some u) rs env = ([], .error .transactions_unsupported) ∧
      table_impl.replace_async t (some u) r env = ([], .error .transactions_unsupported) ∧
      table_impl.replace_exact_async t (some u) r nr env = ([], .error .transactions_unsupported) ∧
      table_impl.get_and_replace_async t (some u) r env = ([], .error .transactions_unsupported) ∧
      table_impl.remove_async t (some u) k env = ([], .error .transactions_unsupported) ∧
      table_impl.remove_exact_async t (some u) r env = ([], .error .transactions_unsupported) ∧
      table_impl.get_and_remove_async t (some u) k env = ([], .error .transactions_unsupported) ∧
      table_impl.remove_all_async t (some u) ks env = ([], .error .transactions_unsupported) ∧
      table_impl.remove_all_exact_async t (some u) rs env = ([], .error .transactions_unsupported) :=
  fun _ _ _ _ _ _ _ _ =>
    ⟨rfl, rfl, rfl, rfl, rfl, rfl, rfl, rfl, rfl, rfl, rfl, rfl, rfl, rfl, rfl⟩

/-- C9: read_tuples and read_tuples_opt with a null schema pointer return an
empty vector without consuming anything from the reader (the i32 count
included); consequently the readers of get_all, insert_all, remove_all and
remove_all_exact deliver an empty result when the response carries no
schema. -/
theorem claim_C9_null_schema_empty :
    ∀ (stream : wire_stream) (key_only : Bool) (body : wire_stream),
      read_tuples stream none key_only = .ok ([], stream) ∧
      read_tuples_opt stream none key_only = .ok ([], stream) ∧
      get_all_reader ⟨none, body⟩ = .ok ([], body) ∧
      insert_all_reader ⟨none, body⟩ = .ok ([], body) ∧
      remove_all_reader ⟨none, body⟩ = .ok ([], body) ∧
      remove_all_exact_reader ⟨none, body⟩ = .ok ([], body) :=
  fun _ _ _ => ⟨rfl, rfl, rfl, rfl, rfl, rfl⟩

/-- C7: get_latest_schema_async snapshots the latest schema version; when the
snapshot is non-negative it answers synchronously with the schema looked up
in the cache, and otherwise (negative snapshot, i.e. empty cache) it falls
back to load_schema_async. -/
theorem claim_C7_latest_schema :
    ∀ c : schema_cache, cache_inv c →
      (0 ≤ c.latest → ∃ s, c.lookup c.latest = some s ∧
        get_latest_schema c = .cached (some s)) ∧
      (c.latest < 0 → c.entries = [] ∧ get_latest_schema c = .load) := by
  intro c hinv
  obtain ⟨h1, h2, h3⟩ := hinv
  constructor
  · intro hl
    have hsome := h3 hl
    cases hs : c.lookup c.latest with
    | none => rw [hs] at hsome; simp at hsome
    | some s =>
      refine ⟨s, rfl, ?_⟩
      unfold get_latest_schema
      rw [if_pos hl, hs]
  · intro hl
    have hemp : c.entries = [] := by
      cases hent : c.entries with
      | nil => rfl
      | cons p ps =>
        have := h2 p (by rw [hent]; simp)
        omega
    refine ⟨hemp, ?_⟩
    unfold get_latest_schema
    rw [if_neg (by omega)]

/-- Witness for C7 at a one-entry cache: the lookup branch is taken and
yields the cached schema. -/
theorem claim_C7_latest_schema_witness :
    (0 ≤ (schema_cache.empty.add_schema wSchema).latest →
      ∃ s, (schema_cache.empty.add_schema wSchema).lookup
          (schema_cache.empty.add_schema wSchema).latest = some s ∧
        get_latest_schema (schema_cache.empty.add_schema wSchema) = .cached (some s)) ∧
    ((schema_cache.empty.add_schema wSchema).latest < 0 →
      (schema_cache.empty.add_schema wSchema).entries = [] ∧
      get_latest_schema (schema_cache.empty.add_schema wSchema) = .load) :=
  claim_C7_latest_schema (schema_cache.empty.add_schema wSchema)
    (cache_inv_add cache_inv_empty (by decide))

/-- C6: load_schema_async issues a SCHEMAS_GET request whose body is
(table_id, nil); an empty schema map in the response is a SchemaMissing
failure, and otherwise every map entry is parsed and inserted into the cache
and the last entry is delivered to the callback. -/
theorem claim_C6_load_schema :
    ∀ (t : table_state),
      load_schema_request t = [.wuuid t.id_msb t.id_lsb, .wnil] ∧
      resolve_schema { t with cache := schema_cache.empty } { schemas_reply := [], response := ⟨none, []⟩ } =
        ([⟨.SCHEMAS_GET, load_schema_request { t with cache := schema_cache.empty }⟩],
          .error .schema_missing) ∧
      load_schema_response t [] = .error .schema_missing ∧
      ∀ (e : schema) (es : List schema) (t2 : table_state) (last : schema),
        load_schema_response t (e :: es) = .ok (t2, last) →
        last = (e :: es).getLast (List.cons_ne_nil e es) ∧
        (∀ s ∈ e :: es, (t2.cache.lookup s.version).isSome = true) ∧
        t2.cache = (e :: es).foldl (fun c s => c.add_schema s) t.cache := by
  intro t
  refine ⟨rfl, rfl, rfl, ?_⟩
  intro e es t2 last h
  simp only [load_schema_response] at h
  simp at h
  obtain ⟨h1, h2⟩ := h
  refine ⟨?_, ?_, ?_⟩
  · rw [← h2]
    exact foldl_const_last es e
  · intro s hs
    rw [← h1]
    simpa using foldl_add_mem t.cache s hs
  · rw [← h1]
    rfl

/-- Witness for C6 at a two-entry schema map over a fresh table handle. -/
theorem claim_C6_load_schema_witness :
    wSchema2 = ([wSchema, wSchema2] : List schema).getLast
        (List.cons_ne_nil wSchema [wSchema2]) ∧
    (∀ s ∈ ([wSchema, wSchema2] : List schema),
      (wTableLoaded.cache.lookup s.version).isSome = true) ∧
    wTableLoaded.cache =
      ([wSchema, wSchema2] : List schema).foldl (fun c s => c.add_schema s) wTable.cache :=
  (claim_C6_load_schema wTable).2.2.2 wSchema [wSchema2] wTableLoaded wSchema2 (by decide)

/-- C2 counterexample: with key_only = true over a two-column schema with one
key column, read_tuple produces a record of size key_column_count (here 1),
not of size schema.columns.size() (here 2) as the claim states. -/
theorem claim_C2_counterexample :
    read_tuple [.wbin [some (intToLE 8 42)]] wSchema true =
      .ok (⟨[("id", some (.vint64 42))]⟩, []) ∧
    (ignite_tuple.mk [("id", some (.vint64 42))]).size = 1 ∧
    wSchema.columns.length = 2 :=
  ⟨by decide, rfl, rfl⟩

/-- C2 amended: read_tuple(reader, schema, key_only) produces a record of
size count (key_column_count when key_only is true and columns.size()
otherwise), whose fields are the first count schema columns in order, filled
from the parsed tuple. -/
theorem claim_C2_amended :
    ∀ (sch : schema) (key_only : Bool) (stream : wire_stream) (res : ignite_tuple)
      (rest2 : wire_stream),
      schema_wf sch →
      read_tuple stream sch key_only = .ok (res, rest2) →
      res.size = count_of sch key_only ∧
      res.fields.map Prod.fst =
        (sch.columns.take (count_of sch key_only)).map column.name := by
  intro sch ko stream res rest2 hwf h
  obtain ⟨hn, hs, _⟩ := read_tuple_fields hwf h
  exact ⟨hs, hn⟩

/-- Witness for the amended C2 at a concrete key-only read. -/
theorem claim_C2_amended_witness :
    (ignite_tuple.mk [("id", some (.vint64 42))]).size = count_of wSchema true ∧
    (ignite_tuple.mk [("id", some (.vint64 42))]).fields.map Prod.fst =
      (wSchema.columns.take (count_of wSchema true)).map column.name :=
  claim_C2_amended wSchema true [.wbin [some (intToLE 8 42)]]
    ⟨[("id", some (.vint64 42))]⟩ [] (by decide) (by decide)

/-- C10: the response tuples of remove_all are decoded in key-only mode
(records over the key columns only), whereas the response tuples of
remove_all_exact and insert_all are decoded in full-row mode (records over
all schema columns). -/
theorem claim_C10_decode_modes :
    ∀ (resp : op_response) (sch : schema) (ts : List ignite_tuple) (rest2 : wire_stream),
      resp.resolved_schema = some sch → schema_wf sch →
      (remove_all_reader resp = .ok (ts, rest2) →
        ∀ tup ∈ ts, tup.fields.map Prod.fst =
          (sch.columns.take sch.key_column_count).map column.name) ∧
      (remove_all_exact_reader resp = .ok (ts, rest2) →
        ∀ tup ∈ ts, tup.fields.map Prod.fst = sch.columns.map column.name) ∧
      (insert_all_reader resp = .ok (ts, rest2) →
        ∀ tup ∈ ts, tup.fields.map Prod.fst = sch.columns.map column.name) := by
  intro resp sch ts rest2 hres hwf
  have htake : sch.columns.take (count_of sch false) = sch.columns := by
    unfold count_of
    simp
  refine ⟨?_, ?_, ?_⟩
  · intro h
    unfold remove_all_reader at h
    rw [hres] at h
    have hf := read_tuples_fields hwf h
    simpa [count_of] using hf
  · intro h
    unfold remove_all_exact_reader at h
    rw [hres] at h
    have hf := read_tuples_fields hwf h
    simpa [htake] using hf
  · intro h
    unfold insert_all_reader at h
    rw [hres] at h
    have hf := read_tuples_fields hwf h
    simpa [htake] using hf

/-- Witness for C10: a one-tuple remove_all response decodes to a key-only
record. -/
theorem claim_C10_decode_modes_witness :
    (ignite_tuple.mk [("id", some (.vint64 42))]).fields.map Prod.fst =
      (wSchema.columns.take wSchema.key_column_count).map column.name :=
  (claim_C10_decode_modes ⟨some wSchema, [.wi32 1, .wbin [some (intToLE 8 42)]]⟩
    wSchema [⟨[("id", some (.vint64 42))]⟩] [] rfl (by decide)).1 (by decide)
    ⟨[("id", some (.vint64 42))]⟩ (by decide)

/-- C5: read_tuple(reader, schema, key_record) builds a record over all
schema columns whose value at each key column equals exactly the value of
that column in key_record, regardless of the response payload; value columns
are consumed from the parser (sized to columns.size() - key_column_count). -/
theorem claim_C5_merge_key :
    ∀ (sch : schema) (key : ignite_tuple) (stream : wire_stream) (res : ignite_tuple)
      (rest2 : wire_stream),
      schema_wf sch →
      read_tuple_with_key stream sch key = .ok (res, rest2) →
      res.fields.map Prod.fst = sch.columns.map column.name ∧
      (∀ (i : Nat) (c : column), sch.columns[i]? = some c → i < sch.key_column_count →
        res.get_by_name c.name = key.get_by_name c.name) := by
  intro sch key stream res rest2 hwf h
  obtain ⟨h1, h2, _⟩ := read_tuple_with_key_spec hwf h
  exact ⟨h1, h2⟩

/-- Witness for C5: a concrete merge read copies the key column from the
request record. -/
theorem claim_C5_merge_key_witness :
    wMergedRecord.fields.map Prod.fst = wSchema.columns.map column.name ∧
    wMergedRecord.get_by_name "id" = wKeyRecord.get_by_name "id" := by
  have h := claim_C5_merge_key wSchema wKeyRecord [.wbin [some [97, 98]]]
    wMergedRecord [] (by decide) (by decide)
  exact ⟨h.1, h.2 0 ⟨"id", .INT64, false, true⟩ (by decide) (by decide)⟩

/-- C8: the response readers of get_and_upsert, get_and_replace and
get_and_remove return an empty optional without parsing when the resolved
schema is null, and otherwise decode with the key-merging read_tuple over
the full request record, so the key columns of a returned record equal the
key columns of the request record. -/
theorem claim_C8_get_and_readers :
    ∀ (record : ignite_tuple) (body : wire_stream) (resp : op_response) (sch : schema)
      (res : ignite_tuple) (rest2 : wire_stream),
      (get_and_upsert_reader record ⟨none, body⟩ = .ok (none, body) ∧
        get_and_replace_reader record ⟨none, body⟩ = .ok (none, body) ∧
        get_and_remove_reader record ⟨none, body⟩ = .ok (none, body)) ∧
      (resp.resolved_schema = some sch → schema_wf sch →
        (get_and_upsert_reader record resp = .ok (some res, rest2) ∨
          get_and_replace_reader record resp = .ok (some res, rest2) ∨
          get_and_remove_reader record resp = .ok (some res, rest2)) →
        ∀ (i : Nat) (c : column), sch.columns[i]? = some c → i < sch.key_column_count →
          res.get_by_name c.name = record.get_by_name c.name) := by
  intro record body resp sch res rest2
  refine ⟨⟨rfl, rfl, rfl⟩, ?_⟩
  intro hres hwf hread
  have hinv : ∀ x : Except error_kind (ignite_tuple × wire_stream),
      Except.map (fun r => (some r.1, r.2)) x = .ok (some res, rest2) →
      x = .ok (res, rest2) := by
    intro x hx
    cases x with
    | error e => simp [Except.map] at hx
    | ok p =>
      obtain ⟨a, b⟩ := p
      simp [Except.map] at hx
      rw [hx.1, hx.2]
  have hrw : read_tuple_with_key resp.body sch record = .ok (res, rest2) := by
    rcases hread with h | h | h
    · unfold get_and_upsert_reader at h
      rw [hres] at h
      exact hinv _ h
    · unfold get_and_replace_reader at h
      rw [hres] at h
      exact hinv _ h
    · unfold get_and_remove_reader at h
      rw [hres] at h
      exact hinv _ h
  exact fun i c hc hik => (read_tuple_with_key_spec hwf hrw).2.1 i c hc hik

/-- Witness for C8: the null-schema short-circuit and a concrete merge-back
through the get_and_upsert reader. -/
theorem claim_C8_get_and_readers_witness :
    (get_and_upsert_reader wKeyRecord ⟨none, []⟩ = .ok (none, []) ∧
      get_and_replace_reader wKeyRecord ⟨none, []⟩ = .ok (none, []) ∧
      get_and_remove_reader wKeyRecord ⟨none, []⟩ = .ok (none, [])) ∧
    wMergedRecord.get_by_name "id" = wKeyRecord.get_by_name "id" := by
  have h := claim_C8_get_and_readers wKeyRecord []
    ⟨some wSchema, [.wbin [some [97, 98]]]⟩ wSchema wMergedRecord []
  refine ⟨h.1, ?_⟩
  exact h.2 rfl (by decide) (Or.inl (by decide)) 0 ⟨"id", .INT64, false, true⟩
    (by decide) (by decide)

/-- C4 counterexample: with key_only = true over a two-column schema with
one key column, pack_tuple never sets bit 1 even though the record has no
field named schema.columns[1].name, so the claimed iff fails for that i. -/
theorem claim_C4_counterexample :
    ∃ (es : tuple_data) (bits : Nat),
      pack_tuple wSchema wKeyRecord true = .ok (es, bits) ∧
      ¬ (bits.testBit 1 = true ↔ wKeyRecord.column_ordinal
          ((wSchema.columns.getD 1 ⟨"", .INT8, false, false⟩).name) < 0) := by
  refine ⟨[some (intToLE 8 42)], 0, by decide, by decide⟩

/-- C4 amended: for every i below count (key_column_count when key_only,
columns.size() otherwise), bit i of the bitset produced by pack_tuple is set
iff the record has no field named schema.columns[i].name, and for every such
missing column the corresponding tuple field is built as absent; bits at or
above count are never set. -/
theorem claim_C4_amended :
    ∀ (sch : schema) (r : ignite_tuple) (key_only : Bool) (es : tuple_data) (bits : Nat),
      pack_tuple sch r key_only = .ok (es, bits) →
      (∀ (i : Nat) (c : column), (sch.columns.take (count_of sch key_only))[i]? = some c →
        (bits.testBit i = true ↔ r.column_ordinal c.name < 0) ∧
        (r.column_ordinal c.name < 0 → es[i]? = some none)) ∧
      (∀ i : Nat, count_of sch key_only ≤ i → bits.testBit i = false) := by
  intro sch r ko es bits h
  simp only [pack_tuple] at h
  cases hcl : claim_columns r (sch.columns.take (count_of sch ko)) with
  | error e =>
    rw [hcl] at h
    simp [Except.bind] at h
  | ok u =>
    rw [hcl] at h
    simp only [Except.bind] at h
    obtain ⟨hlen, hbit, hzero⟩ := append_columns_bits _ 0 es bits h
    constructor
    · intro i c hc
      have hb1 : bits.testBit i = (r.column_ordinal? c.name).isNone := by
        simpa using (hbit i c hc).1
      constructor
      · rw [column_ordinal_neg_iff, hb1]
      · intro hneg
        exact (hbit i c hc).2 (column_ordinal_neg_iff.mp hneg)
    · intro i hi
      apply hzero
      right
      have hlt : (sch.columns.take (count_of sch ko)).length ≤ count_of sch ko := by
        rw [List.length_take]
        exact Nat.min_le_left _ _
      omega

/-- Witness for the amended C4: packing only the key column of a two-column
schema in key-only mode produces an all-zero bitset whose bit 0 agrees with
the present key field, and sets no bit at or above count. -/
theorem claim_C4_amended_witness :
    (Nat.testBit 0 0 = true ↔ wKeyRecord.column_ordinal "id" < 0) ∧
    Nat.testBit 0 1 = false := by
  have h := claim_C4_amended wSchema wKeyRecord true [some (intToLE 8 42)] 0 (by decide)
  exact ⟨(h.1 0 ⟨"id", .INT64, false, true⟩ (by decide)).1, h.2 1 (by decide)⟩

/-- C3: for every record whose columns form a subset of the schema columns
and carry values matching the declared types, writing then reading back in
the same mode yields, on each serialized column, exactly the value of the
record when the column is present and the absent sentinel otherwise; with
key_only = true this covers the key columns. -/
theorem claim_C3_roundtrip :
    ∀ (sch : schema) (r : ignite_tuple) (key_only : Bool),
      schema_wf sch → record_wf r → record_matches sch r →
      ∃ (data : tuple_data) (bits : Nat),
        write_tuple sch r key_only =
          .ok [.wbitset (natToLE (bytes_for_bits (count_of sch key_only)) bits),
            .wbin data] ∧
        ∀ rest : wire_stream, ∃ res : ignite_tuple,
          read_tuple (.wbin data :: rest) sch key_only = .ok (res, rest) ∧
          ∀ (k : Nat) (c : column),
            (sch.columns.take (count_of sch key_only))[k]? = some c →
            match r.column_ordinal? c.name with
            | some j => res.get_by_name c.name = r.val_at j
            | none => res.get_by_name c.name = some none := by
  intro sch r ko hwf hrwf hrm
  set cols := sch.columns.take (count_of sch ko) with hcols
  have hsub : cols.Sublist sch.columns := by
    rw [hcols]
    exact List.take_sublist _ _
  have hok : cols_ok r cols := by
    intro c hc j hord
    have hord2 : find_ordinal c.name r.fields = some j := hord
    obtain ⟨p, hp, hpfold⟩ := find_ordinal_eq_some hord2
    have hpmem : p ∈ r.fields := by
      obtain ⟨hlt, he⟩ := List.getElem?_eq_some.mp hp
      exact he ▸ List.getElem_mem hlt
    obtain ⟨c2, hc2mem, hc2fold, hval⟩ := hrm p hpmem
    have hcmem : c ∈ sch.columns := hsub.subset hc
    have hceq : c2 = c :=
      col_eq_of_fold_eq hwf.2 hc2mem hcmem (by rw [hc2fold, hpfold])
    cases hv : p.2 with
    | none =>
      rw [hv] at hval
      simp at hval
    | some tv =>
      rw [hv] at hval
      simp at hval
      refine ⟨tv, ?_, ?_⟩
      · unfold ignite_tuple.val_at
        rw [List.get?_eq_getElem?, hp]
        simp [hv]
      · rw [← hceq]
        exact hval
  obtain ⟨es, bits, hap, hlen, l, hread, hnames, hvals⟩ := pack_read_roundtrip cols 0 hok
  have hclaim := claim_columns_ok cols hok
  have hpack : pack_tuple sch r ko = .ok (es, bits) := by
    simp only [pack_tuple, ← hcols]
    rw [hclaim]
    simp only [Except.bind]
    exact hap
  refine ⟨es, bits, ?_, ?_⟩
  · simp [write_tuple, hpack, Except.map]
  · intro rest
    have hcnt : count_of sch ko = cols.length := by
      rw [hcols, List.length_take]
      have hk := hwf.1
      unfold count_of
      cases ko
      · simp
      · simp
        exact hk
    refine ⟨build_record l, ?_, ?_⟩
    · rw [← hcnt] at hread
      simp only [read_tuple, bind, Except.bind, read_binary, ← hcols, hread]
    · intro k c hc
      have hval := hvals k c hc
      have hpw : cols.Pairwise (fun a b => fold_name a.name ≠ fold_name b.name) :=
        List.Pairwise.sublist hsub hwf.2
      obtain ⟨p, hp, hname, hget⟩ := get_by_name_from_names hnames hpw hc
      rw [hp] at hval
      simp at hval
      cases hord : r.column_ordinal? c.name with
      | some j =>
        simp only [hord, Option.elim] at hval
        have hord2 : find_ordinal c.name r.fields = some j := hord
        obtain ⟨q, hq, hqfold⟩ := find_ordinal_eq_some hord2
        have hvj : r.val_at j = some q.2 := by
          unfold ignite_tuple.val_at
          rw [List.get?_eq_getElem?, hq]
          rfl
        rw [hvj] at hval
        simp at hval
        simp only [hord]
        rw [hget, hvj, hval]
      | none =>
        simp only [hord, Option.elim] at hval
        simp only [hord]
        rw [hget, hval]

/-- Witness for C3 at a concrete full-record round trip. -/
theorem claim_C3_roundtrip_witness :
    ∃ (data : tuple_data) (bits : Nat),
      write_tuple wSchema wFullRecord false =
        .ok [.wbitset (natToLE (bytes_for_bits (count_of wSchema false)) bits),
          .wbin data] ∧
      ∀ rest : wire_stream, ∃ res : ignite_tuple,
        read_tuple (.wbin data :: rest) wSchema false = .ok (res, rest) ∧
        ∀ (k : Nat) (c : column),
          (wSchema.columns.take (count_of wSchema false))[k]? = some c →
          match wFullRecord.column_ordinal? c.name with
          | some j => res.get_by_name c.name = wFullRecord.val_at j
          | none => res.get_by_name c.name = some none :=
  claim_C3_roundtrip wSchema wFullRecord false (by decide) (by decide) (by decide)

end IgniteClient
